import Mathlib

/-!
Verification of the CLIP `SimpleTokenizer` (src/clip/simple_tokenizer.py).

Python strings are modelled as `List Char` (a Python `str` is a sequence of
code points).  Python dicts are modelled as association lists together with
`pyDict`, which replays Python's dict-construction semantics (later bindings
for the same key overwrite earlier ones, insertion order preserved).
Fallible operations (`dict[k]`, `tuple.index`, `token[-1]` on an empty
string) are modelled with `Option`.
-/

/-- A Python string: a list of Unicode code points. -/
abbrev PyStr := List Char

/-- The BPE cache: a dict from pre-token strings to their merged segmentation. -/
abbrev Cache := List (PyStr × PyStr)

/-- Code points of a string literal. -/
def lc (s : String) : List Char := s.data

/-- Association-list lookup, modelling `dict.get` on a dict with unique keys
(first binding wins; `pyDict` below produces unique-key lists). -/
def alookup {α β : Type} [DecidableEq α] : List (α × β) → α → Option β
  | [], _ => none
  | (k, v) :: t, x => if k = x then some v else alookup t x

/-- One Python dict update `d[k] = v`: overwrite in place if `k` is bound,
otherwise append the new binding (insertion order semantics). -/
def pyUpd {α β : Type} [DecidableEq α] (d : List (α × β)) (k : α) (v : β) :
    List (α × β) :=
  if k ∈ d.map Prod.fst then d.map (fun p => if p.1 = k then (k, v) else p)
  else d ++ [(k, v)]

/-- Python `dict(pairs)`: fold the bindings left to right, later bindings for
the same key overwriting earlier ones.  Models `dict(zip(...))`. -/
def pyDict {α β : Type} [DecidableEq α] (l : List (α × β)) : List (α × β) :=
  l.foldl (fun d p => pyUpd d p.1 p.2) []

/-- Python `l[a:b]` for `0 ≤ a ≤ b`. -/
def pySlice {α : Type} (l : List α) (a b : Nat) : List α := (l.take b).drop a

/-- The "already printable" byte values of `bytes_to_unicode`:
`list(range(ord("!"), ord("~")+1)) + list(range(ord("¡"), ord("¬")+1)) +
list(range(ord("®"), ord("ÿ")+1))`, i.e. `[33..126] ++ [161..172] ++ [174..255]`. -/
def bs0 : List Nat := List.range' 33 94 ++ List.range' 161 12 ++ List.range' 174 82

/-- The byte values `0..255` not in `bs0`, in ascending order — the order in
which the loop `for b in range(2**8): if b not in bs: ...` appends them. -/
def extraBytes : List Nat := (List.range 256).filter (fun b => decide (b ∉ bs0))

/-- `bytes_to_unicode()`: the association list `dict(zip(bs, cs))`.  The first
188 bytes map to themselves as code points, the remaining 68 bytes map to code
points `256, 257, ...` in the order they are appended.  All keys are distinct,
so a plain association list models the dict. -/
def b2u : List (Nat × Char) :=
  (bs0 ++ extraBytes).zip
    ((bs0 ++ (List.range extraBytes.length).map (fun n => 256 + n)).map Char.ofNat)

/-- `self.byte_encoder[b]` (KeyError modelled as `none`). -/
def byteEnc (b : Nat) : Option Char := alookup b2u b

/-- `self.byte_decoder[c]` — the inverted dict `{v: k for k, v in byte_encoder.items()}`. -/
def byteDec (c : Char) : Option Nat := alookup (b2u.map (fun p => (p.2, p.1))) c

/-- The end-of-word marker `'</w>'`. -/
def eowM : PyStr := lc ("</w>")

/-- The start-of-text special token. -/
def sotS : PyStr := lc ("<|startoftext|>")

/-- The end-of-text special token. -/
def eotS : PyStr := lc ("<|endoftext|>")

/-- `get_pairs(word)`: the adjacent symbol pairs of a word.  The source builds
a Python `set`; we keep the list of pairs in order of appearance.  Only
membership and the value of an arg-min over the pairs are ever consumed, and
both are invariant under duplication and reordering (distinct pairs always
have distinct ranks, see `bpe_ranks`), so the list faithfully models the set. -/
def get_pairs (w : List PyStr) : List (PyStr × PyStr) := w.zip w.tail

/-- Newline, used by `split('\n')` in the loader. -/
def nlC : Char := Char.ofNat 10

/-- Apostrophe (code point 39). -/
def apoC : Char := Char.ofNat 39

/-- Generic single-character split, Python `str.split(sep)` with an explicit
one-character separator: `"".split(sep) == ['']`, empty fields are kept. -/
def splitCh (sep : Char) : PyStr → List PyStr
  | [] => [[]]
  | c :: t =>
    if c = sep then [] :: splitCh sep t
    else
      match splitCh sep t with
      | [] => [[c]]
      | h :: r => (c :: h) :: r

/-- Python `sep.join(strs)` for a single-character separator; `' '.join(word)`
in `bpe`. -/
def joinCh (sep : Char) : List PyStr → PyStr
  | [] => []
  | [x] => x
  | x :: y :: t => x ++ sep :: joinCh sep (y :: t)

/-- Python `str.split()` with no argument, as used on each merge line:
split on runs of whitespace, discarding empty fields. -/
def wsSplit : PyStr → List PyStr
  | [] => []
  | [c] => if c.isWhitespace then [] else [[c]]
  | c :: d :: t =>
    if c.isWhitespace then wsSplit (d :: t)
    else
      if d.isWhitespace then [c] :: wsSplit (d :: t)
      else
        match wsSplit (d :: t) with
        | [] => [[c]]
        | h :: r => (c :: h) :: r

/-- The merge lines kept by the loader: `merges[1:49152-256-2+1]`
(skip the header line, then keep at most `49152-256-2` lines). -/
def keptMerges (lines : List PyStr) : List PyStr := pySlice lines 1 (49152 - 256 - 2 + 1)

/-- The loaded merge table: each kept line split on whitespace.  The source
applies `tuple(merge.split())` with no arity check, so an entry may have any
number of fields. -/
def loadMerges (lines : List PyStr) : List (List PyStr) := (keptMerges lines).map wsSplit

/-- `self.bpe_ranks = dict(zip(merges, range(len(merges))))`: a duplicated
merge line keeps its **last** index, which `pyDict` reproduces. -/
def bpeRanks (merges : List (List PyStr)) : List (List PyStr × Nat) :=
  pyDict (merges.zip (List.range merges.length))

/-- `self.bpe_ranks.get(pair)` — `none` when the pair is absent. -/
def rankOf (merges : List (List PyStr)) (p : PyStr × PyStr) : Option Nat :=
  alookup (bpeRanks merges) [p.1, p.2]

/-- `self.bpe_ranks.get(pair, float('inf'))`, the key of the arg-min in `bpe`.
Every finite rank is `< merges.length`, so `merges.length` serves as the
infinity: an unranked pair never wins against a ranked one. -/
def rankKey (merges : List (List PyStr)) (p : PyStr × PyStr) : Nat :=
  (rankOf merges p).getD merges.length

/-- Python `min(xs, key=key)`: the first element attaining the minimal key
(`none` on an empty list).  `bpe` applies it to a set of pairs whose iteration
order is unspecified, but distinct pairs have distinct finite ranks and the
minimum is only consumed when it is ranked, so its value does not depend on
the order. -/
def pyMin {α : Type} (key : α → Nat) : List α → Option α
  | [] => none
  | x :: xs => some (xs.foldl (fun b a => if key a < key b then a else b) x)

/-- `tuple.index(a, i)` relative to a suffix: index of the first occurrence of
`a`, `none` modelling the `ValueError` that the source catches. -/
def idxFrom {α : Type} [DecidableEq α] (a : α) : List α → Option Nat
  | [] => none
  | x :: t => if x = a then some 0 else (idxFrom a t).map (· + 1)

/-- The inner rewrite scan of `bpe`: starting from `i = 0`, repeatedly
`word.index(first, i)`; on `ValueError` copy the remainder and stop; at a
found position merge `first, second` into one unit when `word[i] == first`,
`i < len(word)-1` and `word[i+1] == second`, else copy one symbol.  Here the
suffix `word[i:]` is the argument and the copied prefix is re-attached. -/
def mergeScanF (f s : PyStr) : Nat → List PyStr → List PyStr
  | 0, w => w
  | fuel + 1, w =>
    match idxFrom f w with
    | none => w
    | some j =>
      match w.drop j with
      | [] => w.take j
      | x :: rest =>
        match rest with
        | [] => w.take j ++ [x]
        | y :: rest2 =>
          if x = f ∧ y = s then w.take j ++ [f ++ s] ++ mergeScanF f s fuel rest2
          else w.take j ++ [x] ++ mergeScanF f s fuel rest

/-- The scan with its canonical fuel.  Every step consumes at least one
symbol of the remaining suffix, so `w.length` rounds of fuel always suffice
(`mergeScanF_fuel` below); the fuel only makes the recursion structural. -/
def mergeScan (f s : PyStr) (w : List PyStr) : List PyStr := mergeScanF f s w.length w

/-- The merge rewrite as the specification words it: a single left-to-right,
non-overlapping scan replacing every adjacent occurrence of `(f, s)` by the
unit `f ++ s` and copying every other symbol through. -/
def specMerge (f s : PyStr) : List PyStr → List PyStr
  | [] => []
  | [x] => [x]
  | x :: y :: rest =>
    if x = f ∧ y = s then (f ++ s) :: specMerge f s rest
    else x :: specMerge f s (y :: rest)

/-- The merge loop of `bpe`, with explicit fuel (each genuine iteration
shortens the word, so `word.length` fuel always suffices; `none` marks fuel
exhaustion and is proved unreachable below).  One iteration: pick the pair
with the minimal `bpe_ranks` key; stop if it has no finite rank; otherwise
rewrite the word and stop as soon as it has length 1. -/
def bpeLoopF (merges : List (List PyStr)) : Nat → List PyStr → Option (List PyStr)
  | 0, _ => none
  | fuel + 1, word =>
    match pyMin (rankKey merges) (get_pairs word) with
    | none => some word
    | some p =>
      if rankOf merges p = none then some word
      else
        let w2 := mergeScan p.1 p.2 word
        if w2.length = 1 then some w2 else bpeLoopF merges fuel w2

/-- The initial `word` of `bpe`: each character as a one-character symbol,
the last character suffixed with the end-of-word marker
(`tuple(token[:-1]) + (token[-1] + '</w>',)`).  Only reached for a non-empty
token; the `none` branch of `getLast?` is dead. -/
def initWord (token : PyStr) : List PyStr :=
  match token.getLast? with
  | none => []
  | some ch => token.dropLast.map (fun c => [c]) ++ [ch :: eowM]

/-- `SimpleTokenizer.bpe`.  `none` models the `IndexError` raised by
`token[-1]` on an empty token (and, formally, fuel exhaustion of the loop,
proved unreachable).  Returns the result together with the updated cache:
the degenerate single-symbol path returns `token + '</w>'` **without**
writing the cache, the loop path stores its result under the token. -/
def bpe (merges : List (List PyStr)) (cache : Cache) (token : PyStr) :
    Option (PyStr × Cache) :=
  match alookup cache token with
  | some v => some (v, cache)
  | none =>
    match token with
    | [] => none
    | _ :: _ =>
      let word := initWord token
      if get_pairs word = [] then some (token ++ eowM, cache)
      else
        match bpeLoopF merges word.length word with
        | none => none
        | some w2 =>
          let r := joinCh ' ' w2
          some (r, cache ++ [(token, r)])

/-- The vocabulary: the 256 byte symbols, the 256 byte symbols suffixed with
`'</w>'`, one concatenated entry (`''.join(merge)`) per merge rule in table
order, then the two special tokens. -/
def mkVocab (merges : List (List PyStr)) : List PyStr :=
  let base := b2u.map (fun p => [p.2])
  base ++ base.map (fun v => v ++ eowM) ++ merges.map List.flatten ++ [sotS, eotS]

/-- The tokenizer state built by `SimpleTokenizer.__init__` from the decoded
text of the merges artifact (decompression and UTF-8 decoding of the file are
the external collaborator's job; the constructor receives the text and splits
it on newlines). -/
structure Tokenizer where
  merges : List (List PyStr)
  vocab : List PyStr
  encoder : List (PyStr × Nat)
  decoder : List (Nat × PyStr)
  cache : Cache

/-- `SimpleTokenizer.__init__`: split the artifact into lines, keep
`merges[1:49152-256-2+1]`, split each kept line on whitespace, build the
vocabulary, the encoder (`dict(zip(vocab, range(len(vocab))))`), the decoder
(`{v: k for k, v in encoder.items()}`) and the pre-seeded cache.  Note there
is no validation anywhere: the construction is a total function. -/
def mkTokenizer (artifact : PyStr) : Tokenizer :=
  let merges := loadMerges (splitCh nlC artifact)
  let vocab := mkVocab merges
  let enc := pyDict (vocab.zip (List.range vocab.length))
  { merges := merges
    vocab := vocab
    encoder := enc
    decoder := pyDict (enc.map (fun p => (p.2, p.1)))
    cache := [(sotS, sotS), (eotS, eotS)] }

/-- UTF-8 encoding of one code point (`str.encode('utf-8')`, per character). -/
def utf8Char (c : Char) : List Nat :=
  let n := c.toNat
  if n < 128 then [n]
  else if n < 2048 then [192 + n / 64, 128 + n % 64]
  else if n < 65536 then [224 + n / 4096, 128 + n / 64 % 64, 128 + n % 64]
  else [240 + n / 262144, 128 + n / 4096 % 64, 128 + n / 64 % 64, 128 + n % 64]

/-- UTF-8 encoding of a string. -/
def utf8Str (l : PyStr) : List Nat := (l.map utf8Char).flatten

/-- The Unicode replacement character U+FFFD. -/
def uRepl : Char := Char.ofNat 65533

/-- Modelled from the spec: `bytearray(...).decode('utf-8', errors="replace")`,
the standard-library lossy UTF-8 decoder (an external collaborator of the
core).  Well-formed sequences decode exactly; a malformed lead, a truncated
sequence, an overlong encoding or a surrogate yields the replacement
character and the scan resumes at the offending byte.  Total by construction:
it never fails. -/
def utf8Dec : List Nat → List Char
  | [] => []
  | b :: t =>
    if b < 128 then Char.ofNat b :: utf8Dec t
    else if b < 194 then uRepl :: utf8Dec t
    else if b < 224 then
      match t with
      | [] => [uRepl]
      | b1 :: t1 =>
        if 128 ≤ b1 ∧ b1 < 192 then
          Char.ofNat ((b - 192) * 64 + (b1 - 128)) :: utf8Dec t1
        else uRepl :: utf8Dec (b1 :: t1)
    else if b < 240 then
      match t with
      | [] => [uRepl]
      | b1 :: t1 =>
        if (128 ≤ b1 ∧ b1 < 192) ∧ (b ≠ 224 ∨ 160 ≤ b1) ∧ (b ≠ 237 ∨ b1 < 160) then
          match t1 with
          | [] => [uRepl]
          | b2 :: t2 =>
            if 128 ≤ b2 ∧ b2 < 192 then
              Char.ofNat ((b - 224) * 4096 + (b1 - 128) * 64 + (b2 - 128)) :: utf8Dec t2
            else uRepl :: utf8Dec (b2 :: t2)
        else uRepl :: utf8Dec (b1 :: t1)
    else if b < 245 then
      match t with
      | [] => [uRepl]
      | b1 :: t1 =>
        if (128 ≤ b1 ∧ b1 < 192) ∧ (b ≠ 240 ∨ 144 ≤ b1) ∧ (b ≠ 244 ∨ b1 < 144) then
          match t1 with
          | [] => [uRepl]
          | b2 :: t2 =>
            if 128 ≤ b2 ∧ b2 < 192 then
              match t2 with
              | [] => [uRepl]
              | b3 :: t3 =>
                if 128 ≤ b3 ∧ b3 < 192 then
                  Char.ofNat ((b - 240) * 262144 + (b1 - 128) * 4096 +
                    (b2 - 128) * 64 + (b3 - 128)) :: utf8Dec t3
                else uRepl :: utf8Dec (b3 :: t3)
            else uRepl :: utf8Dec (b2 :: t2)
        else uRepl :: utf8Dec (b1 :: t1)
    else uRepl :: utf8Dec t

/-- Exact-match strip: `some rest` when `pat` is an initial segment of `l`. -/
def takePre? : PyStr → PyStr → Option PyStr
  | [], r => some r
  | _ :: _, [] => none
  | p :: ps, x :: xs => if x = p then takePre? ps xs else none

/-- Python `str.replace('</w>', ' ')`: left-to-right, non-overlapping
replacement of every occurrence. -/
def pyReplaceF : Nat → PyStr → PyStr
  | 0, l => l
  | _ + 1, [] => []
  | fuel + 1, c :: t =>
    if takePre? eowM (c :: t) = none then c :: pyReplaceF fuel t
    else ' ' :: pyReplaceF fuel ((c :: t).drop eowM.length)

/-- The replacement with its canonical fuel (each step consumes at least one
character, so `l.length` rounds always suffice; the fuel only makes the
recursion structural). -/
def pyReplace (l : PyStr) : PyStr := pyReplaceF l.length l

/-- Modelled from the spec: `ftfy.fix_text`, the external mojibake-repair
collaborator (explicitly out of the core's scope); the identity on
already-well-encoded text, which is all the claims exercise. -/
def fix_text (t : PyStr) : PyStr := t

/-- Modelled from the spec: `html.unescape`, the standard-library HTML-entity
decoder (external to the core); the identity on entity-free text, which is
all the claims exercise. -/
def html_unescape (t : PyStr) : PyStr := t

/-- Python `str.strip()` (here for the Unicode whitespace the inputs use). -/
def pyStrip (t : PyStr) : PyStr :=
  ((t.dropWhile Char.isWhitespace).reverse.dropWhile Char.isWhitespace).reverse

/-- `basic_clean`: fix encoding, HTML-unescape twice, strip. -/
def basic_clean (t : PyStr) : PyStr := pyStrip (html_unescape (html_unescape (fix_text t)))

/-- `re.sub(r'\s+', ' ', text)`: collapse each whitespace run to one space. -/
def wsCollapse : PyStr → PyStr
  | [] => []
  | [c] => if c.isWhitespace then [' '] else [c]
  | c :: d :: t =>
    if c.isWhitespace ∧ d.isWhitespace then wsCollapse (d :: t)
    else (if c.isWhitespace then ' ' else c) :: wsCollapse (d :: t)

/-- `whitespace_clean`: collapse whitespace, then strip. -/
def whitespace_clean (t : PyStr) : PyStr := pyStrip (wsCollapse t)

/-- `text.lower()` (ASCII case folding, which covers every input the claims
exercise; full Unicode case tables belong to the runtime collaborator). -/
def lowerStr (t : PyStr) : PyStr := t.map Char.toLower

/-- The normalisation pipeline of `encode`:
`whitespace_clean(basic_clean(text)).lower()`. -/
def normText (t : PyStr) : PyStr := lowerStr (whitespace_clean (basic_clean t))

/-- The contraction alternatives of the pre-tokenisation pattern:
`'s|'t|'re|'ve|'m|'ll|'d`. -/
def contractions : List PyStr :=
  [[apoC, 's'], [apoC, 't'], [apoC, 'r', 'e'], [apoC, 'v', 'e'],
   [apoC, 'm'], [apoC, 'l', 'l'], [apoC, 'd']]

/-- Case-insensitive literal strip (the pattern is compiled with
`re.IGNORECASE`; the literal alternatives are lowercase). -/
def takePreCI? : PyStr → PyStr → Option PyStr
  | [], r => some r
  | _ :: _, [] => none
  | p :: ps, x :: xs => if x.toLower = p then takePreCI? ps xs else none

/-- First literal alternative matching at the current position; returns the
matched slice of the input (regex `findall` returns matched text). -/
def matchLit (pats : List PyStr) (l : PyStr) : Option PyStr :=
  match pats with
  | [] => none
  | p :: ps =>
    match takePreCI? p l with
    | some _ => some (l.take p.length)
    | none => matchLit ps l

/-- Character class `[^\s\p{L}\p{N}]` of the pattern (for the character
repertoire the claims exercise; Unicode category tables belong to the regex
collaborator). -/
def isOtherCh (c : Char) : Bool := !c.isWhitespace && !c.isAlpha && !c.isDigit

/-- The match attempted at one position of `re.findall(self.pat, text)`:
the ordered alternatives `<|startoftext|> | <|endoftext|> | 's|'t|'re|'ve|'m|'ll|'d
| [\p{L}]+ | [\p{N}] | [^\s\p{L}\p{N}]+`.  `none` when nothing matches here
(a whitespace character), in which case the scan advances one position. -/
def matchAt (l : PyStr) : Option PyStr :=
  match matchLit ([sotS, eotS] ++ contractions) l with
  | some chunk => some chunk
  | none =>
    match l with
    | [] => none
    | c :: t =>
      if c.isAlpha then some ((c :: t).takeWhile Char.isAlpha)
      else if c.isDigit then some [c]
      else if isOtherCh c then some ((c :: t).takeWhile isOtherCh)
      else none

/-- `re.findall(self.pat, text)`: scan left to right; at each position emit
the first matching alternative and resume after it, or skip one (whitespace)
character.  Every match consumes at least one character, so resuming at
`drop (max chunk.length 1)` is the same as resuming after the match. -/
def findChunksF : Nat → PyStr → List PyStr
  | 0, _ => []
  | _ + 1, [] => []
  | fuel + 1, c :: t =>
    match matchAt (c :: t) with
    | some chunk => chunk :: findChunksF fuel ((c :: t).drop (max chunk.length 1))
    | none => findChunksF fuel t

/-- The scan with its canonical fuel: every match consumes at least one
character (`matchAt_ne_nil`), and an unmatched (whitespace) position consumes
one, so `l.length` rounds of fuel always suffice; the fuel only makes the
recursion structural. -/
def findChunks (l : PyStr) : List PyStr := findChunksF l.length l

/-- `Option.map`-style traversal: Python list comprehensions over fallible
lookups (`self.encoder[x]`, `self.byte_decoder[c]`), failing on the first
KeyError. -/
def omap {α β : Type} (f : α → Option β) : List α → Option (List β)
  | [] => some []
  | x :: t =>
    match f x with
    | none => none
    | some y => (omap f t).map (fun r => y :: r)

/-- The body of `encode`'s loop for one chunk: translate the chunk's UTF-8
bytes through `byte_encoder`, run `bpe`, split the result on spaces and look
every subword up in `encoder`. -/
def encodeChunk (T : Tokenizer) (cache : Cache) (chunk : PyStr) :
    Option (List Nat × Cache) :=
  match omap byteEnc (utf8Str chunk) with
  | none => none
  | some token =>
    match bpe T.merges cache token with
    | none => none
    | some (r, c2) =>
      match omap (fun sw => alookup T.encoder sw) (splitCh ' ' r) with
      | none => none
      | some ids => some (ids, c2)

/-- `encode`'s loop over all chunks, threading the growing cache and
concatenating the produced ids. -/
def encodeChunks (T : Tokenizer) : Cache → List PyStr → Option (List Nat × Cache)
  | cache, [] => some ([], cache)
  | cache, ch :: rest =>
    match encodeChunk T cache ch with
    | none => none
    | some (ids, c2) =>
      match encodeChunks T c2 rest with
      | none => none
      | some (ids2, c3) => some (ids ++ ids2, c3)

/-- `SimpleTokenizer.encode`: normalise, pre-tokenise, BPE-encode each chunk.
The cache is threaded explicitly (`self.cache` is instance state). -/
def encode (T : Tokenizer) (cache : Cache) (text : PyStr) : Option (List Nat × Cache) :=
  encodeChunks T cache (findChunks (normText text))

/-- `SimpleTokenizer.decode`: look every id up in `decoder` (KeyError
modelled as `none`), concatenate, map every character through `byte_decoder`,
lossily UTF-8-decode the byte string, and replace every `'</w>'` by a space. -/
def decode (T : Tokenizer) (ids : List Nat) : Option PyStr :=
  match omap (fun i => alookup T.decoder i) ids with
  | none => none
  | some toks =>
    match omap byteDec toks.flatten with
    | none => none
    | some bytes => some (pyReplace (utf8Dec bytes))

/-- Modelled from the spec: the artifact well-formedness condition whose
violation the spec's `FormatError` is said to signal — every kept merge line
splits into exactly two whitespace-separated fields, and the artifact has at
least the expected `1 + (49152-256-2)` lines.  The source has no
corresponding check; this definition exists only to state that divergence. -/
def specLoadOk (artifact : PyStr) : Bool :=
  (loadMerges (splitCh nlC artifact)).all (fun m => m.length == 2) &&
    decide (49152 - 256 - 2 + 1 ≤ (splitCh nlC artifact).length)

/-- A malformed, truncated artifact: one three-field merge line, one
one-field merge line, far fewer lines than expected. -/
def badArt : PyStr := lc ("header\na b c\nd")

/-- An artifact whose two merge lines are identical, so the vocabulary
contains the entry `ab` twice. -/
def dupArt : PyStr := lc ("h\na b\na b")

/-- An artifact consisting of a header line only: no merge rules at all.
The resulting tokenizer has the 514 base vocabulary entries and an empty
rank table, so `bpe` never merges anything. -/
def noMergeArt : PyStr := lc ("h")

/-! ### C1: definitions for the round-trip statement -/

/-- Spec side, for the refinement claim C1: the text the round trip actually
reproduces — each pre-tokenisation chunk followed by one space (the image of
its end-of-word marker), special tokens reproduced bare. -/
def roundTarget (chunks : List PyStr) : PyStr :=
  (chunks.map (fun c => if c = sotS ∨ c = eotS then c else c ++ [' '])).flatten

/-- The character string reaching `str.replace('</w>', ' ')` while decoding
an encoded chunk list: each chunk followed by the end-of-word marker, special
tokens bare. -/
def decTextOf (chunks : List PyStr) : PyStr :=
  (chunks.map (fun c => if c = sotS ∨ c = eotS then c else c ++ eowM)).flatten

/-- A BPE result faithfully segments `token ++ '</w>'` into vocabulary
entries (when split on the separating spaces). -/
def SubSpec (merges : List (List PyStr)) (t r : PyStr) : Prop :=
  splitCh ' ' r ≠ [] ∧ (∀ u ∈ splitCh ' ' r, u ∈ mkVocab merges) ∧
    (splitCh ' ' r).flatten = t ++ eowM

/-- The cache invariant threaded through `encode`: the two special seeds hit
and map to themselves, and every hit is either a seed hit or a faithful
segmentation of its key. -/
def GoodCache (merges : List (List PyStr)) (cache : Cache) : Prop :=
  alookup cache sotS = some sotS ∧ alookup cache eotS = some eotS ∧
    ∀ t r, alookup cache t = some r →
      (t = sotS ∧ r = sotS) ∨ (t = eotS ∧ r = eotS) ∨ SubSpec merges t r

/-- The shapes a chunk of `re.findall(self.pat, text)` can take, one per
alternative of the pattern. -/
def ChunkShape (c : PyStr) : Prop :=
  c = sotS ∨ c = eotS ∨ c ∈ contractions ∨
    (c ≠ [] ∧ ∀ x ∈ c, x.isAlpha = true) ∨
    (∃ d, c = [d] ∧ d.isDigit = true) ∨
    (c ≠ [] ∧ ∀ x ∈ c, isOtherCh x = true)

/-! ### Basic lemmas about the dictionary and traversal models -/

theorem alookup_some_mem {α β : Type} [DecidableEq α] {l : List (α × β)} {x : α}
    {v : β} (h : alookup l x = some v) : (x, v) ∈ l := by
  induction l with
  | nil => simp [alookup] at h
  | cons p t ih =>
    obtain ⟨k, w⟩ := p
    simp only [alookup] at h
    split at h
    · next he => cases h; subst he; exact List.mem_cons_self _ _
    · exact List.mem_cons_of_mem _ (ih h)

theorem alookup_eq_none {α β : Type} [DecidableEq α] {l : List (α × β)} {x : α}
    (h : ∀ p ∈ l, p.1 ≠ x) : alookup l x = none := by
  induction l with
  | nil => rfl
  | cons p t ih =>
    obtain ⟨k, w⟩ := p
    simp only [alookup]
    have hk : k ≠ x := h (k, w) (List.mem_cons_self _ _)
    simp only [hk, if_false]
    exact ih (fun q hq => h q (List.mem_cons_of_mem _ hq))

theorem alookup_append {α β : Type} [DecidableEq α] {l1 l2 : List (α × β)} {x : α}
    (h : alookup l1 x = none) : alookup (l1 ++ l2) x = alookup l2 x := by
  induction l1 with
  | nil => rfl
  | cons p t ih =>
    obtain ⟨k, w⟩ := p
    simp only [alookup] at h ⊢
    split at h
    · cases h
    · next hk => simp only [List.cons_append, alookup, hk, if_false] at *
                 exact ih h

theorem omap_length {α β : Type} {f : α → Option β} {l : List α} {r : List β}
    (h : omap f l = some r) : r.length = l.length := by
  induction l generalizing r with
  | nil => simp [omap] at h; simp [← h]
  | cons x t ih =>
    simp only [omap] at h
    cases hf : f x with
    | none => rw [hf] at h; cases h
    | some y =>
      rw [hf] at h
      cases ht : omap f t with
      | none => rw [ht] at h; cases h
      | some r2 => rw [ht] at h; cases h; simp [ih ht]

theorem takePreCI_len {p l r : PyStr} (h : takePreCI? p l = some r) :
    p.length + r.length = l.length := by
  induction p generalizing l with
  | nil => simp [takePreCI?] at h; simp [← h]
  | cons c ps ih =>
    cases l with
    | nil => simp [takePreCI?] at h
    | cons x xs =>
      simp only [takePreCI?] at h
      split at h
      · have := ih h
        simp only [List.length_cons]
        omega
      · cases h

theorem takePre_len {p l r : PyStr} (h : takePre? p l = some r) :
    p.length + r.length = l.length := by
  induction p generalizing l with
  | nil => simp [takePre?] at h; simp [← h]
  | cons c ps ih =>
    cases l with
    | nil => simp [takePre?] at h
    | cons x xs =>
      simp only [takePre?] at h
      split at h
      · have := ih h
        simp only [List.length_cons]
        omega
      · cases h

theorem matchLit_ne_nil {pats : List PyStr} {l ch : PyStr}
    (hp : ∀ p ∈ pats, p ≠ []) (h : matchLit pats l = some ch) : ch ≠ [] := by
  induction pats with
  | nil => simp [matchLit] at h
  | cons p ps ih =>
    simp only [matchLit] at h
    cases hm : takePreCI? p l with
    | some r =>
      rw [hm] at h
      cases h
      have hlen := takePreCI_len hm
      have hpne : p ≠ [] := hp p (List.mem_cons_self _ _)
      have : p.length ≠ 0 := fun h0 => hpne (List.length_eq_zero.mp h0)
      intro hnil
      have := congrArg List.length hnil
      simp only [List.length_take, List.length_nil] at this
      omega
    | none =>
      rw [hm] at h
      exact ih (fun q hq => hp q (List.mem_cons_of_mem _ hq)) h

theorem matchAt_ne_nil {l ch : PyStr} (h : matchAt l = some ch) : ch ≠ [] := by
  simp only [matchAt] at h
  cases hm : matchLit ([sotS, eotS] ++ contractions) l with
  | some c2 =>
    rw [hm] at h
    cases h
    exact matchLit_ne_nil (by decide) hm
  | none =>
    rw [hm] at h
    cases l with
    | nil => cases h
    | cons c t =>
      by_cases ha : c.isAlpha
      · simp only [ha, if_true] at h
        cases h
        simp [List.takeWhile_cons, ha]
      · simp only [ha, if_false] at h
        by_cases hd : c.isDigit
        · simp only [hd, if_true] at h
          cases h
          simp
        · simp only [hd, if_false] at h
          by_cases ho : isOtherCh c
          · simp only [ho, if_true] at h
            cases h
            simp [List.takeWhile_cons, ho]
          · simp only [ho, if_false] at h
            cases h

theorem findChunksF_ne_nil :
    ∀ (fuel : Nat) (l : PyStr), ∀ ch ∈ findChunksF fuel l, ch ≠ [] := by
  intro fuel
  induction fuel with
  | zero => intro l ch hch; simp [findChunksF] at hch
  | succ n ih =>
    intro l ch hch
    cases l with
    | nil => simp [findChunksF] at hch
    | cons c t =>
      rw [findChunksF] at hch
      cases hm : matchAt (c :: t) with
      | some chunk =>
        rw [hm] at hch
        rcases List.mem_cons.mp hch with hh | hh
        · subst hh; exact matchAt_ne_nil hm
        · exact ih _ ch hh
      | none =>
        rw [hm] at hch
        exact ih t ch hch

theorem findChunks_ne_nil : ∀ (l : PyStr), ∀ ch ∈ findChunks l, ch ≠ [] :=
  fun l => findChunksF_ne_nil l.length l

theorem utf8Char_ne_nil (c : Char) : utf8Char c ≠ [] := by
  simp only [utf8Char]
  split
  · simp
  · split
    · simp
    · split
      · simp
      · simp

theorem utf8Str_ne_nil {c : PyStr} (h : c ≠ []) : utf8Str c ≠ [] := by
  cases c with
  | nil => exact absurd rfl h
  | cons x t =>
    simp only [utf8Str, List.map_cons, List.flatten_cons]
    intro hn
    rcases List.append_eq_nil.mp hn with ⟨h1, _⟩
    exact utf8Char_ne_nil x h1

theorem get_pairs_eq_nil {w : List PyStr} : get_pairs w = [] ↔ w.length ≤ 1 := by
  cases w with
  | nil => simp [get_pairs]
  | cons x t =>
    cases t with
    | nil => simp [get_pairs]
    | cons y t2 => simp [get_pairs]

theorem initWord_length (c : Char) (cs : PyStr) :
    (initWord (c :: cs)).length = (c :: cs).length := by
  have hne : (c :: cs) ≠ [] := by simp
  rw [initWord, List.getLast?_eq_getLast _ hne]
  simp [List.length_dropLast]

/-! ### Lemmas about `pyDict`, the Python dict-construction model -/

theorem alookup_append_left {α β : Type} [DecidableEq α] {l1 l2 : List (α × β)}
    {x : α} {v : β} (h : alookup l1 x = some v) :
    alookup (l1 ++ l2) x = some v := by
  induction l1 with
  | nil => simp [alookup] at h
  | cons p t ih =>
    obtain ⟨k, w⟩ := p
    simp only [alookup, List.cons_append] at h ⊢
    split at h
    · next hk => simp only [hk, if_true]; exact h
    · next hk => simp only [hk, if_false]; exact ih h

theorem pyUpd_entry_mem {α β : Type} [DecidableEq α] {d : List (α × β)} {k : α}
    {v : β} {p : α × β} (h : p ∈ pyUpd d k v) : p ∈ d ∨ p = (k, v) := by
  unfold pyUpd at h
  split at h
  · rcases List.mem_map.mp h with ⟨q, hq, he⟩
    by_cases hqk : q.1 = k
    · simp only [hqk, if_true] at he
      right; exact he.symm
    · simp only [hqk, if_false] at he
      left; exact he ▸ hq
  · rcases List.mem_append.mp h with h1 | h1
    · left; exact h1
    · right; simpa using h1

theorem pyDict_entry_mem {α β : Type} [DecidableEq α] {l : List (α × β)}
    {p : α × β} (h : p ∈ pyDict l) : p ∈ l := by
  suffices H : ∀ (m acc : List (α × β)),
      p ∈ List.foldl (fun d q => pyUpd d q.1 q.2) acc m → p ∈ acc ∨ p ∈ m by
    rcases H l [] h with h1 | h1
    · simp at h1
    · exact h1
  intro m
  induction m with
  | nil => intro acc h2; left; exact h2
  | cons q t ih =>
    intro acc h2
    simp only [List.foldl_cons] at h2
    rcases ih _ h2 with h1 | h1
    · rcases pyUpd_entry_mem h1 with h3 | h3
      · left; exact h3
      · right; rw [h3]; exact List.mem_cons_self _ _
    · right; exact List.mem_cons_of_mem _ h1

theorem alookup_cons {α β : Type} [DecidableEq α] (a : α) (b : β)
    (t : List (α × β)) (x : α) :
    alookup ((a, b) :: t) x = if a = x then some b else alookup t x := rfl

theorem alookup_map_upd {α β : Type} [DecidableEq α] (d : List (α × β)) (k : α)
    (v : β) (x : α) (hx : x ≠ k) :
    alookup (d.map (fun p => if p.1 = k then (k, v) else p)) x = alookup d x := by
  induction d with
  | nil => rfl
  | cons q t ih =>
    obtain ⟨a, b⟩ := q
    simp only [List.map_cons]
    by_cases hq : a = k
    · rw [show ((if (a, b).1 = k then (k, v) else (a, b)) : α × β) = (k, v) by
        simp [hq]]
      rw [alookup_cons, alookup_cons]
      rw [if_neg (fun he => hx he.symm), if_neg (fun he => hx ((hq ▸ he : k = x)).symm)]
      exact ih
    · rw [show ((if (a, b).1 = k then (k, v) else (a, b)) : α × β) = (a, b) by
        simp [hq]]
      rw [alookup_cons, alookup_cons]
      by_cases hax : a = x
      · rw [if_pos hax, if_pos hax]
      · rw [if_neg hax, if_neg hax]; exact ih

theorem alookup_pyUpd_self {α β : Type} [DecidableEq α] (d : List (α × β))
    (k : α) (v : β) : alookup (pyUpd d k v) k = some v := by
  unfold pyUpd
  split
  · next hk =>
    induction d with
    | nil => simp at hk
    | cons q t ih =>
      obtain ⟨a, b⟩ := q
      simp only [List.map_cons]
      by_cases hq : a = k
      · rw [show ((if (a, b).1 = k then (k, v) else (a, b)) : α × β) = (k, v) by
          simp [hq]]
        rw [alookup_cons, if_pos rfl]
      · rw [show ((if (a, b).1 = k then (k, v) else (a, b)) : α × β) = (a, b) by
          simp [hq]]
        rw [alookup_cons, if_neg hq]
        simp only [List.map_cons, List.mem_cons] at hk
        rcases hk with hk | hk
        · exact absurd hk.symm hq
        · exact ih hk
  · next hk =>
    have hnone : alookup d k = none := by
      refine alookup_eq_none (fun p hp he => hk ?_)
      exact he ▸ List.mem_map_of_mem Prod.fst hp
    rw [alookup_append hnone]
    rw [alookup_cons, if_pos rfl]

theorem alookup_pyUpd_ne {α β : Type} [DecidableEq α] (d : List (α × β))
    (k : α) (v : β) (x : α) (hx : x ≠ k) :
    alookup (pyUpd d k v) x = alookup d x := by
  unfold pyUpd
  split
  · exact alookup_map_upd d k v x hx
  · cases hd : alookup d x with
    | some w => exact alookup_append_left hd
    | none =>
      rw [alookup_append hd]
      rw [alookup_cons, if_neg (fun he => hx he.symm)]
      rfl

theorem alookup_pyDict {α β : Type} [DecidableEq α] (l : List (α × β)) (k : α) :
    alookup (pyDict l) k = alookup l.reverse k := by
  induction l using List.reverseRecOn with
  | nil => rfl
  | append_singleton l' p ih =>
    obtain ⟨a, b⟩ := p
    show alookup (List.foldl (fun d q => pyUpd d q.1 q.2) [] (l' ++ [(a, b)])) k = _
    rw [List.foldl_append]
    simp only [List.foldl_cons, List.foldl_nil]
    rw [List.reverse_append]
    simp only [List.reverse_cons, List.reverse_nil, List.nil_append, List.singleton_append]
    by_cases hk : a = k
    · subst hk
      rw [show List.foldl (fun d q => pyUpd d q.1 q.2) [] l' = pyDict l' from rfl]
      rw [alookup_pyUpd_self]
      simp [alookup]
    · rw [show List.foldl (fun d q => pyUpd d q.1 q.2) [] l' = pyDict l' from rfl]
      rw [alookup_pyUpd_ne _ _ _ _ (fun he => hk he.symm)]
      rw [ih]
      simp [alookup, hk]

/-! ### The encoder and decoder dicts built from the vocabulary -/

theorem mem_zip_rangeFrom {α : Type} :
    ∀ (l : List α) (s : Nat) (t : α) (i : Nat),
      (t, i) ∈ l.zip (List.range' s l.length) → s ≤ i ∧ l[i - s]? = some t := by
  intro l
  induction l with
  | nil => intro s t i h; simp at h
  | cons x xs ih =>
    intro s t i h
    rw [List.length_cons, List.range'_succ, List.zip_cons_cons] at h
    rcases List.mem_cons.mp h with h1 | h1
    · obtain ⟨ht, hi⟩ := Prod.mk.injEq .. ▸ h1
      subst ht; subst hi
      exact ⟨le_rfl, by simp⟩
    · obtain ⟨hs, hg⟩ := ih (s + 1) t i h1
      refine ⟨by omega, ?_⟩
      have he : i - s = (i - (s + 1)) + 1 := by omega
      rw [he]
      simpa using hg

theorem mem_zip_range_getElem {α : Type} {l : List α} {t : α} {i : Nat}
    (h : (t, i) ∈ l.zip (List.range l.length)) : l[i]? = some t := by
  have h2 := mem_zip_rangeFrom l 0 t i (by rwa [← List.range_eq_range'])
  simpa using h2.2

theorem alookup_zip_range_snoc {α : Type} [DecidableEq α] (l : List α) (a x : α) :
    alookup (pyDict ((l ++ [a]).zip (List.range (l ++ [a]).length))) x =
      if a = x then some l.length
      else alookup (pyDict (l.zip (List.range l.length))) x := by
  rw [alookup_pyDict, alookup_pyDict]
  have hlen : (l ++ [a]).length = l.length + 1 := by simp
  rw [hlen, List.range_succ, List.zip_append (by simp)]
  rw [List.reverse_append]
  simp only [List.zip_cons_cons, List.zip_nil_left, List.reverse_cons, List.reverse_nil,
    List.nil_append, List.singleton_append]
  rw [alookup_cons]

theorem enc_lookup_getElem {α : Type} [DecidableEq α] {l : List α} {x : α} {i : Nat}
    (h : alookup (pyDict (l.zip (List.range l.length))) x = some i) :
    l[i]? = some x ∧ ∀ j, l[j]? = some x → j ≤ i := by
  induction l using List.reverseRecOn with
  | nil => simp [pyDict, alookup] at h
  | append_singleton l' a ih =>
    rw [alookup_zip_range_snoc] at h
    by_cases ha : a = x
    · rw [if_pos ha] at h
      cases h
      subst ha
      refine ⟨by simp [List.getElem?_concat_length], ?_⟩
      intro j hj
      have hb := (List.getElem?_eq_some.mp hj).1
      simp only [List.length_append, List.length_singleton] at hb
      omega
    · rw [if_neg ha] at h
      obtain ⟨hg, hb⟩ := ih h
      have hlt : i < l'.length := (List.getElem?_eq_some.mp hg).1
      refine ⟨?_, ?_⟩
      · rw [List.getElem?_append_left hlt]
        exact hg
      · intro j hj
        by_cases hjl : j < l'.length
        · rw [List.getElem?_append_left hjl] at hj
          exact hb j hj
        · have hj2 : j < l'.length + 1 := by
            have := (List.getElem?_eq_some.mp hj).1
            simpa using this
          have hje : j = l'.length := by omega
          subst hje
          rw [List.getElem?_concat_length] at hj
          cases hj
          exact absurd rfl ha

theorem enc_lookup_isSome {α : Type} [DecidableEq α] {l : List α} {x : α}
    (h : x ∈ l) :
    ∃ i, alookup (pyDict (l.zip (List.range l.length))) x = some i := by
  induction l using List.reverseRecOn with
  | nil => simp at h
  | append_singleton l' a ih =>
    rw [alookup_zip_range_snoc]
    by_cases ha : a = x
    · exact ⟨l'.length, by rw [if_pos ha]⟩
    · rw [if_neg ha]
      apply ih
      rcases List.mem_append.mp h with h1 | h1
      · exact h1
      · exact absurd (List.mem_singleton.mp h1).symm ha

theorem alookup_swap_of_unique {α β : Type} [DecidableEq α] [DecidableEq β]
    {L : List (α × β)} {k : α} {v : β} (hmem : (k, v) ∈ L)
    (huniq : ∀ p ∈ L, p.2 = v → p.1 = k) :
    alookup (L.map (fun p => (p.2, p.1))) v = some k := by
  induction L with
  | nil => simp at hmem
  | cons q t ih =>
    obtain ⟨a, b⟩ := q
    simp only [List.map_cons]
    rw [alookup_cons]
    by_cases hb : b = v
    · rw [if_pos hb]
      exact congrArg some (huniq (a, b) (List.mem_cons_self _ _) hb)
    · rw [if_neg hb]
      apply ih
      · rcases List.mem_cons.mp hmem with h1 | h1
        · exact absurd (congrArg Prod.snd h1).symm hb
        · exact h1
      · exact fun p hp => huniq p (List.mem_cons_of_mem _ hp)

theorem dec_of_enc {vocab : List PyStr} {t : PyStr} {i : Nat}
    (h : alookup (pyDict (vocab.zip (List.range vocab.length))) t = some i) :
    alookup (pyDict ((pyDict (vocab.zip (List.range vocab.length))).map
      (fun p => (p.2, p.1)))) i = some t := by
  rw [alookup_pyDict, ← List.map_reverse]
  apply alookup_swap_of_unique
  · exact List.mem_reverse.mpr (alookup_some_mem h)
  · intro p hp hpv
    have hp2 := List.mem_reverse.mp hp
    have hz := pyDict_entry_mem hp2
    have hz2 : vocab[p.2]? = some p.1 := by
      obtain ⟨p1, p2⟩ := p
      exact mem_zip_range_getElem hz
    have ht : vocab[i]? = some t :=
      mem_zip_range_getElem (pyDict_entry_mem (alookup_some_mem h))
    rw [hpv, ht] at hz2
    cases hz2
    rfl

theorem map_fst_map_upd {α β : Type} [DecidableEq α] (d : List (α × β)) (k : α)
    (v : β) :
    (d.map (fun p => if p.1 = k then (k, v) else p)).map Prod.fst = d.map Prod.fst := by
  induction d with
  | nil => rfl
  | cons q t ih =>
    obtain ⟨a, b⟩ := q
    simp only [List.map_cons]
    by_cases hq : a = k
    · rw [show ((if (a, b).1 = k then (k, v) else (a, b)) : α × β) = (k, v) by
        simp [hq]]
      simp only [List.map_cons, List.cons.injEq]
      exact ⟨hq.symm, ih⟩
    · rw [show ((if (a, b).1 = k then (k, v) else (a, b)) : α × β) = (a, b) by
        simp [hq]]
      simp only [List.map_cons, List.cons.injEq, true_and]
      exact ih

theorem pyUpd_keys {α β : Type} [DecidableEq α] (d : List (α × β)) (k : α) (v : β) :
    (pyUpd d k v).map Prod.fst =
      if k ∈ d.map Prod.fst then d.map Prod.fst else d.map Prod.fst ++ [k] := by
  unfold pyUpd
  split
  · exact map_fst_map_upd d k v
  · simp

theorem pyDict_keys_nodup {α β : Type} [DecidableEq α] (l : List (α × β)) :
    ((pyDict l).map Prod.fst).Nodup := by
  induction l using List.reverseRecOn with
  | nil => simp [pyDict]
  | append_singleton l' p ih =>
    obtain ⟨a, b⟩ := p
    show (((List.foldl (fun d q => pyUpd d q.1 q.2) [] (l' ++ [(a, b)]))).map Prod.fst).Nodup
    rw [List.foldl_append]
    simp only [List.foldl_cons, List.foldl_nil]
    rw [show List.foldl (fun d q => pyUpd d q.1 q.2) [] l' = pyDict l' from rfl]
    rw [pyUpd_keys]
    split
    · exact ih
    · next hk =>
      rw [List.nodup_append]
      refine ⟨ih, List.nodup_singleton _, ?_⟩
      intro x hx hx2
      rw [List.mem_singleton] at hx2
      subst hx2
      exact hk hx

theorem alookup_of_mem_nodup {α β : Type} [DecidableEq α] {l : List (α × β)}
    {k : α} {v : β} (hmem : (k, v) ∈ l) (hnd : (l.map Prod.fst).Nodup) :
    alookup l k = some v := by
  induction l with
  | nil => simp at hmem
  | cons q t ih =>
    obtain ⟨a, b⟩ := q
    rw [alookup_cons]
    simp only [List.map_cons, List.nodup_cons] at hnd
    by_cases ha : a = k
    · rw [if_pos ha]
      rcases List.mem_cons.mp hmem with h1 | h1
      · cases h1; rfl
      · exact absurd (ha ▸ List.mem_map_of_mem Prod.fst h1) hnd.1
    · rw [if_neg ha]
      rcases List.mem_cons.mp hmem with h1 | h1
      · cases h1; exact absurd rfl ha
      · exact ih h1 hnd.2

/-! ### C4: how many merge lines the loader keeps -/

/-- C4 counterexample: the claim computes `maxMerges = 49152 − 2·256 − 2 − 1
= 48637`, but on an artifact with plenty of lines the slice
`merges[1:49152-256-2+1]` keeps `49152 − 256 − 2 = 48894` merge lines, not
48637. -/
theorem C4_counterexample :
    (loadMerges (List.replicate 48896 (lc ("a b")))).length = 48894 ∧
    49152 - 2 * 256 - 2 - 1 = 48637 ∧ (48894 : Nat) ≠ 48637 := by
  refine ⟨?_, by norm_num, by norm_num⟩
  simp only [loadMerges, keptMerges, pySlice, List.length_map, List.length_drop,
    List.length_take, List.length_replicate]
  norm_num

/-- C4 (amended): after skipping the header line the loader keeps exactly
`49152 − 256 − 2 = 48894` merge lines whenever the artifact has at least
`48895` lines (the slice `merges[1:49152-256-2+1]`); the claim's formula
`total − 2·numBaseSymbols − specials − header = 48637` does not match the
code. -/
theorem C4_merge_count (lines : List PyStr) (h : 48895 ≤ lines.length) :
    (loadMerges lines).length = 48894 ∧ (49152 - 256 - 2 : Nat) = 48894 := by
  refine ⟨?_, by norm_num⟩
  simp only [loadMerges, keptMerges, pySlice, List.length_map, List.length_drop,
    List.length_take]
  omega

/-- C4 witness: the amended count theorem applied to a concrete artifact
with exactly 48895 lines. -/
theorem C4_witness :
    48895 ≤ (List.replicate 48895 (lc ("x y"))).length ∧
    (loadMerges (List.replicate 48895 (lc ("x y")))).length = 48894 :=
  ⟨by simp only [List.length_replicate, le_refl],
   (C4_merge_count _ (by simp only [List.length_replicate, le_refl])).1⟩

/-! ### C5: the constructor performs no validation -/

/-- C5 counterexample: `badArt` violates both spec-side `FormatError`
conditions (a merge line with three fields, one with one field, and far fewer
lines than expected), yet the constructor completes normally and stores the
malformed tuples verbatim in the merge table — no error of any kind exists in
the code path. -/
theorem C5_counterexample :
    specLoadOk badArt = false ∧
    (mkTokenizer badArt).merges = [[lc ("a"), lc ("b"), lc ("c")], [lc ("d")]] := by
  exact ⟨by decide, by decide⟩

/-- C5 (amended): construction is a total function with no validation: for
every artifact it succeeds, its merge table being exactly the kept lines
split on whitespace (malformed lines yield tuples of arity ≠ 2 and truncated
artifacts yield fewer rules, silently); and a rank lookup for an adjacent
symbol pair only ever hits two-field entries, so malformed entries are inert
during BPE. -/
theorem C5_no_validation :
    (∀ artifact : PyStr,
      (mkTokenizer artifact).merges = (keptMerges (splitCh nlC artifact)).map wsSplit)
    ∧ (∀ (merges : List (List PyStr)) (p : PyStr × PyStr) (k : Nat),
        rankOf merges p = some k → [p.1, p.2] ∈ merges) := by
  refine ⟨fun a => rfl, fun merges p k h => ?_⟩
  have hm := pyDict_entry_mem (alookup_some_mem h)
  have hz : merges[k]? = some [p.1, p.2] := mem_zip_range_getElem hm
  exact List.getElem?_mem hz

/-- C5 witness: the amended theorem applied to the malformed artifact and to
a concrete rank hit. -/
theorem C5_witness :
    (mkTokenizer badArt).merges = (keptMerges (splitCh nlC badArt)).map wsSplit ∧
    [lc ("l"), lc ("o")] ∈ [[lc ("l"), lc ("o")]] :=
  ⟨C5_no_validation.1 badArt,
   C5_no_validation.2 [[lc ("l"), lc ("o")]] (lc ("l"), lc ("o")) 0 (by decide)⟩

/-! ### C8: the byte-symbol bijection -/

set_option maxRecDepth 4000 in
set_option maxHeartbeats 1600000 in
/-- C8: `bytes_to_unicode` is a total bijection over exactly the byte values
0..255: decoding after encoding is the identity; every byte in
`[33..126] ∪ [161..172] ∪ [174..255]` maps to itself as a one-character
symbol; every remaining byte maps to a distinct code point at 256 or above;
the map is injective and defined for no byte value outside 0..255. -/
theorem C8_byte_symbol_map :
    (∀ b, b < 256 → (byteEnc b).bind byteDec = some b)
    ∧ (∀ b, (33 ≤ b ∧ b ≤ 126) ∨ (161 ≤ b ∧ b ≤ 172) ∨ (174 ≤ b ∧ b ≤ 255) →
        byteEnc b = some (Char.ofNat b))
    ∧ (∀ b, b < 256 →
        ¬((33 ≤ b ∧ b ≤ 126) ∨ (161 ≤ b ∧ b ≤ 172) ∨ (174 ≤ b ∧ b ≤ 255)) →
        ∃ c, byteEnc b = some c ∧ 256 ≤ c.toNat)
    ∧ (∀ b b2, b < 256 → b2 < 256 → byteEnc b = byteEnc b2 → b = b2)
    ∧ (∀ b c, byteEnc b = some c → b < 256) := by
  have h1 : ∀ b, b < 256 → (byteEnc b).bind byteDec = some b := by decide
  refine ⟨h1, ?_, ?_, ?_, ?_⟩
  · have h2 : ∀ b, b < 256 →
        ((33 ≤ b ∧ b ≤ 126) ∨ (161 ≤ b ∧ b ≤ 172) ∨ (174 ≤ b ∧ b ≤ 255)) →
        byteEnc b = some (Char.ofNat b) := by decide
    exact fun b hb => h2 b (by omega) hb
  · have h3 : ∀ b, b < 256 →
        ¬((33 ≤ b ∧ b ≤ 126) ∨ (161 ≤ b ∧ b ≤ 172) ∨ (174 ≤ b ∧ b ≤ 255)) →
        (byteEnc b).isSome ∧ 256 ≤ ((byteEnc b).getD uRepl).toNat := by decide
    intro b hb hnb
    obtain ⟨hs, hv⟩ := h3 b hb hnb
    obtain ⟨c, hc⟩ := Option.isSome_iff_exists.mp hs
    exact ⟨c, hc, by rwa [hc] at hv⟩
  · intro b b2 hb hb2 he
    have e1 := h1 b hb
    have e2 := h1 b2 hb2
    rw [he] at e1
    rw [e1] at e2
    exact (Option.some.injEq _ _ ▸ e2)
  · intro b c hc
    have hm := alookup_some_mem hc
    have hall : ∀ p ∈ b2u, p.1 < 256 := by decide
    exact hall _ hm

/-- C8 witness: the bijection theorem evaluated at concrete bytes —
byte 65 is in the printable range (maps to itself), byte 32 (space) is not
(maps to code point 288), and two distinct bytes get distinct symbols. -/
theorem C8_witness :
    (byteEnc 65).bind byteDec = some 65 ∧
    byteEnc 65 = some (Char.ofNat 65) ∧
    (∃ c, byteEnc 32 = some c ∧ 256 ≤ c.toNat) ∧
    (byteEnc 32 = byteEnc 33 → 32 = 33) ∧
    (byteEnc 65 = some (Char.ofNat 65) → 65 < 256) :=
  ⟨C8_byte_symbol_map.1 65 (by norm_num),
   C8_byte_symbol_map.2.1 65 (by norm_num),
   C8_byte_symbol_map.2.2.1 32 (by norm_num) (by norm_num),
   C8_byte_symbol_map.2.2.2.1 32 33 (by norm_num) (by norm_num),
   C8_byte_symbol_map.2.2.2.2 65 (Char.ofNat 65)⟩

/-! ### C10: `bpe` on the empty token, and why encode never produces one -/

/-- C10: on a cache miss, `bpe` of the empty token fails (the `IndexError`
from `token[-1]`, modelled as `none`); this branch is unreachable from
`encode`, because every chunk the pre-tokenisation pattern produces is
non-empty, and the byte-to-symbol translation of a non-empty chunk is a
non-empty token. -/
theorem C10_empty_token :
    (∀ (merges : List (List PyStr)) (cache : Cache),
       alookup cache ([] : PyStr) = none → bpe merges cache [] = none)
    ∧ (∀ t : PyStr, ∀ c ∈ findChunks t, c ≠ [])
    ∧ (∀ (c token : PyStr), c ≠ [] →
        omap byteEnc (utf8Str c) = some token → token ≠ []) := by
  refine ⟨?_, findChunks_ne_nil, ?_⟩
  · intro merges cache h
    simp only [bpe, h]
  · intro c token hc htok hnil
    have h1 := omap_length htok
    have h2 := utf8Str_ne_nil hc
    rw [hnil] at h1
    exact h2 (List.length_eq_zero.mp h1.symm)

/-- C10 witness: the empty-token failure at the initial cache, a concrete
chunk of a concrete text, and a concrete byte translation. -/
theorem C10_witness :
    bpe [] [] [] = none ∧ lc ("ab") ≠ [] ∧ [Char.ofNat 97] ≠ ([] : PyStr) :=
  ⟨C10_empty_token.1 [] [] rfl,
   C10_empty_token.2.1 (lc ("ab c")) (lc ("ab")) (by decide),
   C10_empty_token.2.2 [Char.ofNat 97] [Char.ofNat 97] (by decide) (by decide)⟩

/-! ### C3: what the cache does and does not record -/

/-- C3 counterexample: for the single-character token `"a"` (with empty
cache and no merge rules) `bpe` returns via the degenerate path **without**
writing the cache — the returned cache is unchanged and does not contain the
token, so the second call is not a cache hit, contrary to the claim that
every first call stores its result. -/
theorem C3_counterexample :
    bpe [] [] [Char.ofNat 97] = some (Char.ofNat 97 :: eowM, []) ∧
    alookup ([] : Cache) [Char.ofNat 97] = none :=
  ⟨by decide, rfl⟩

/-- C3 (amended): `bpe` is deterministic and idempotent on the cache: if a
call returns `(r, c2)`, calling again with cache `c2` returns the same
`(r, c2)` with no further mutation.  When the first call was a cache miss on
a token of length ≥ 2 (so the merge loop ran), the result is stored under the
original token and the second call is a genuine cache hit; a single-character
token is returned via the degenerate path without being cached. -/
theorem C3_cache_behavior (merges : List (List PyStr)) (cache : Cache)
    (token r : PyStr) (c2 : Cache) (h : bpe merges cache token = some (r, c2)) :
    bpe merges c2 token = some (r, c2)
    ∧ (alookup cache token = none → 2 ≤ token.length → alookup c2 token = some r) := by
  cases hca : alookup cache token with
  | some v =>
    simp only [bpe, hca] at h
    obtain ⟨hr, hc⟩ := Prod.mk.injEq .. ▸ Option.some.injEq .. ▸ h
    subst hr
    subst hc
    refine ⟨by simp only [bpe, hca], ?_⟩
    intro h1
    exact absurd h1 (by simp)
  | none =>
    cases token with
    | nil =>
      simp only [bpe, hca] at h
      cases h
    | cons c cs =>
      simp only [bpe, hca] at h
      by_cases hp : get_pairs (initWord (c :: cs)) = []
      · rw [if_pos hp] at h
        obtain ⟨hr, hc⟩ := Prod.mk.injEq .. ▸ Option.some.injEq .. ▸ h
        subst hr
        subst hc
        refine ⟨by simp only [bpe, hca, if_pos hp], ?_⟩
        intro _ hlen
        have := get_pairs_eq_nil.mp hp
        rw [initWord_length] at this
        simp only [List.length_cons] at this hlen
        omega
      · rw [if_neg hp] at h
        cases hbl : bpeLoopF merges (initWord (c :: cs)).length (initWord (c :: cs)) with
        | none => rw [hbl] at h; cases h
        | some w2 =>
          rw [hbl] at h
          obtain ⟨hr, hc⟩ := Prod.mk.injEq .. ▸ Option.some.injEq .. ▸ h
          subst hr
          subst hc
          have hlk : alookup (cache ++ [(c :: cs, joinCh ' ' w2)]) (c :: cs) =
              some (joinCh ' ' w2) := by
            rw [alookup_append hca, alookup_cons, if_pos rfl]
          exact ⟨by simp only [bpe, hlk], fun _ _ => hlk⟩

/-- C3 witness: a first call on the two-character token `"ab"` with empty
cache stores its result, and the amended theorem yields the identical second
call and the cache hit. -/
theorem C3_witness :
    bpe [] [(lc ("ab"), lc ("a b</w>"))] (lc ("ab")) =
      some (lc ("a b</w>"), [(lc ("ab"), lc ("a b</w>"))]) ∧
    alookup [(lc ("ab"), lc ("a b</w>"))] (lc ("ab")) = some (lc ("a b</w>")) := by
  have h := C3_cache_behavior [] [] (lc ("ab")) (lc ("a b</w>"))
    [(lc ("ab"), lc ("a b</w>"))] (by decide)
  exact ⟨h.1, h.2 (by decide) (by decide)⟩

/-! ### C2: the merge loop — selection, rewrite scan, stop conditions -/

theorem idxFrom_none_spec {α : Type} [DecidableEq α] {a : α} {l : List α}
    (h : idxFrom a l = none) : a ∉ l := by
  induction l with
  | nil => simp
  | cons x t ih =>
    simp only [idxFrom] at h
    split at h
    · cases h
    · next hx =>
      cases ht : idxFrom a t with
      | some j => rw [ht] at h; cases h
      | none =>
        intro hmem
        rcases List.mem_cons.mp hmem with h1 | h1
        · exact hx h1.symm
        · exact ih ht h1

theorem idxFrom_some_spec {α : Type} [DecidableEq α] {a : α} {l : List α} {j : Nat}
    (h : idxFrom a l = some j) :
    ∃ pre rest, l = pre ++ a :: rest ∧ pre.length = j ∧ a ∉ pre := by
  induction l generalizing j with
  | nil => simp [idxFrom] at h
  | cons x t ih =>
    simp only [idxFrom] at h
    split at h
    · next hx =>
      cases h
      exact ⟨[], t, by simp [hx], rfl, by simp⟩
    · next hx =>
      cases ht : idxFrom a t with
      | none => rw [ht] at h; cases h
      | some j2 =>
        rw [ht] at h
        have h2 : some (j2 + 1) = some j := h
        have h3 : j2 + 1 = j := by cases h2; rfl
        obtain ⟨pre, rest, he, hl, hn⟩ := ih ht
        refine ⟨x :: pre, rest, by simp [he], by simp [hl, ← h3], ?_⟩
        intro hmem
        rcases List.mem_cons.mp hmem with h1 | h1
        · exact hx h1.symm
        · exact hn h1

theorem specMerge_cons_ne {f s a : PyStr} (l : List PyStr) (ha : a ≠ f) :
    specMerge f s (a :: l) = a :: specMerge f s l := by
  cases l with
  | nil => rfl
  | cons y t =>
    show (if a = f ∧ y = s then _ else _) = _
    rw [if_neg (fun hc => ha hc.1)]

theorem specMerge_append_no_f {f s : PyStr} (pre l : List PyStr)
    (h : ∀ x ∈ pre, x ≠ f) :
    specMerge f s (pre ++ l) = pre ++ specMerge f s l := by
  induction pre with
  | nil => rfl
  | cons a p ih =>
    simp only [List.cons_append]
    rw [specMerge_cons_ne _ (h a (List.mem_cons_self _ _))]
    rw [ih (fun x hx => h x (List.mem_cons_of_mem _ hx))]

theorem specMerge_no_f {f s : PyStr} (l : List PyStr) (h : f ∉ l) :
    specMerge f s l = l := by
  have h2 : specMerge f s (l ++ []) = l ++ specMerge f s [] :=
    specMerge_append_no_f l [] (fun x hx hxf => h (hxf ▸ hx))
  have h0 : specMerge f s [] = [] := rfl
  rw [h0, List.append_nil] at h2
  exact h2

theorem mergeScanF_eq_specMerge (f s : PyStr) :
    ∀ (fuel : Nat) (w : List PyStr), w.length ≤ fuel →
      mergeScanF f s fuel w = specMerge f s w := by
  intro fuel
  induction fuel with
  | zero =>
    intro w hw
    have : w = [] := List.length_eq_zero.mp (Nat.le_zero.mp hw)
    subst this
    rfl
  | succ n ih =>
    intro w hw
    cases hidx : idxFrom f w with
    | none =>
      simp only [mergeScanF, hidx]
      exact (specMerge_no_f w (idxFrom_none_spec hidx)).symm
    | some j =>
      obtain ⟨pre, rest, he, hl, hn⟩ := idxFrom_some_spec hidx
      have hdrop : w.drop j = f :: rest := by
        rw [he, ← hl, List.drop_left]
      have htake : w.take j = pre := by
        rw [he, ← hl, List.take_left]
      have hnf : ∀ x ∈ pre, x ≠ f := fun x hx hxf => hn (hxf ▸ hx)
      have hwlen : w.length = pre.length + 1 + rest.length := by
        rw [he]; simp; omega
      cases rest with
      | nil =>
        have hL : mergeScanF f s (n + 1) w = pre ++ [f] := by
          simp only [mergeScanF, hidx, hdrop, htake]
        rw [hL, he, specMerge_append_no_f _ _ hnf]
        rfl
      | cons y rest2 =>
        by_cases hy : y = s
        · have hL : mergeScanF f s (n + 1) w =
              pre ++ [f ++ s] ++ mergeScanF f s n rest2 := by
            simp only [mergeScanF, hidx, hdrop, htake]
            simp [hy]
          rw [hL, he, specMerge_append_no_f _ _ hnf]
          rw [show specMerge f s (f :: y :: rest2) =
              (f ++ s) :: specMerge f s rest2 by
            show (if f = f ∧ y = s then _ else _) = _
            rw [if_pos ⟨rfl, hy⟩]]
          rw [ih rest2 (by simp only [List.length_cons] at hwlen ⊢; omega)]
          simp
        · have hL : mergeScanF f s (n + 1) w =
              pre ++ [f] ++ mergeScanF f s n (y :: rest2) := by
            simp only [mergeScanF, hidx, hdrop, htake]
            simp [hy]
          rw [hL, he, specMerge_append_no_f _ _ hnf]
          rw [show specMerge f s (f :: y :: rest2) =
              f :: specMerge f s (y :: rest2) by
            show (if f = f ∧ y = s then _ else _) = _
            rw [if_neg (fun hc => hy hc.2)]]
          rw [ih (y :: rest2) (by simp only [List.length_cons] at hwlen ⊢; omega)]
          simp

theorem mergeScan_eq_specMerge (f s : PyStr) (w : List PyStr) :
    mergeScan f s w = specMerge f s w :=
  mergeScanF_eq_specMerge f s w.length w le_rfl

theorem pyMin_foldl_mem {α : Type} (key : α → Nat) :
    ∀ (xs : List α) (x : α),
      xs.foldl (fun b a => if key a < key b then a else b) x ∈ x :: xs := by
  intro xs
  induction xs with
  | nil => intro x; simp
  | cons a t ih =>
    intro x
    simp only [List.foldl_cons]
    rcases List.mem_cons.mp (ih (if key a < key x then a else x)) with h1 | h1
    · rw [h1]
      split
      · exact List.mem_cons_of_mem _ (List.mem_cons_self _ _)
      · exact List.mem_cons_self _ _
    · exact List.mem_cons_of_mem _ (List.mem_cons_of_mem _ h1)

theorem pyMin_foldl_le {α : Type} (key : α → Nat) :
    ∀ (xs : List α) (x : α),
      key (xs.foldl (fun b a => if key a < key b then a else b) x) ≤ key x ∧
      ∀ q ∈ xs, key (xs.foldl (fun b a => if key a < key b then a else b) x) ≤ key q := by
  intro xs
  induction xs with
  | nil => intro x; exact ⟨le_rfl, by simp⟩
  | cons a t ih =>
    intro x
    simp only [List.foldl_cons]
    obtain ⟨h1, h2⟩ := ih (if key a < key x then a else x)
    have hpick : key (if key a < key x then a else x) ≤ key x ∧
        key (if key a < key x then a else x) ≤ key a := by
      split
      · next hc => exact ⟨le_of_lt hc, le_rfl⟩
      · next hc => exact ⟨le_rfl, le_of_not_lt hc⟩
    refine ⟨le_trans h1 hpick.1, ?_⟩
    intro q hq
    rcases List.mem_cons.mp hq with rfl | hq1
    · exact le_trans h1 hpick.2
    · exact h2 q hq1

theorem pyMin_mem {α : Type} {key : α → Nat} {l : List α} {p : α}
    (h : pyMin key l = some p) : p ∈ l := by
  cases l with
  | nil => cases h
  | cons x xs =>
    simp only [pyMin, Option.some.injEq] at h
    exact h ▸ pyMin_foldl_mem key xs x

theorem pyMin_le {α : Type} {key : α → Nat} {l : List α} {p : α}
    (h : pyMin key l = some p) : ∀ q ∈ l, key p ≤ key q := by
  cases l with
  | nil => cases h
  | cons x xs =>
    simp only [pyMin, Option.some.injEq] at h
    intro q hq
    obtain ⟨h1, h2⟩ := pyMin_foldl_le key xs x
    rcases List.mem_cons.mp hq with hq1 | hq1
    · exact h ▸ hq1 ▸ h1
    · exact h ▸ h2 q hq1

theorem rankOf_lt_length {merges : List (List PyStr)} {p : PyStr × PyStr} {k : Nat}
    (h : rankOf merges p = some k) : k < merges.length := by
  have hm := pyDict_entry_mem (alookup_some_mem h)
  exact List.mem_range.mp (List.of_mem_zip hm).2

/-- C2: the merge loop of `bpe`.  (1) The rewrite scan of the source (jumping
with `word.index` and catching `ValueError`) merges, in one left-to-right
non-overlapping pass, every adjacent occurrence of the selected pair into one
unit and copies everything else — i.e. it equals the specification's scan
`specMerge`.  (2) `min(pairs, key=...)` selects an element of the pair set
whose key is minimal, keys being `bpe_ranks.get(pair, inf)`.  (3) Every
finite rank is `< merges.length`, so `merges.length` is a faithful `+∞`: a
ranked pair always beats an unranked one.  (4) The loop stops, returning the
word unchanged, when the selected pair has no finite rank.  (5) Otherwise it
rewrites the word with the scan and stops as soon as the rewritten word has
length 1, else repeats. -/
theorem C2_merge_loop :
    (∀ (f s : PyStr) (w : List PyStr), mergeScan f s w = specMerge f s w)
    ∧ (∀ (α : Type) (key : α → Nat) (l : List α) (p : α), pyMin key l = some p →
        p ∈ l ∧ ∀ q ∈ l, key p ≤ key q)
    ∧ (∀ (merges : List (List PyStr)) (p : PyStr × PyStr) (k : Nat),
        rankOf merges p = some k → k < merges.length)
    ∧ (∀ (merges : List (List PyStr)) (fuel : Nat) (word : List PyStr)
        (p : PyStr × PyStr),
        pyMin (rankKey merges) (get_pairs word) = some p →
        rankOf merges p = none →
        bpeLoopF merges (fuel + 1) word = some word)
    ∧ (∀ (merges : List (List PyStr)) (fuel : Nat) (word : List PyStr)
        (p : PyStr × PyStr),
        pyMin (rankKey merges) (get_pairs word) = some p →
        rankOf merges p ≠ none →
        bpeLoopF merges (fuel + 1) word =
          if (specMerge p.1 p.2 word).length = 1 then some (specMerge p.1 p.2 word)
          else bpeLoopF merges fuel (specMerge p.1 p.2 word)) := by
  refine ⟨mergeScan_eq_specMerge, ?_, ?_, ?_, ?_⟩
  · exact fun α key l p h => ⟨pyMin_mem h, pyMin_le h⟩
  · exact fun merges p k h => rankOf_lt_length h
  · intro merges fuel word p hmin hrank
    simp only [bpeLoopF, hmin]
    rw [if_pos hrank]
  · intro merges fuel word p hmin hrank
    simp only [bpeLoopF, hmin]
    rw [if_neg hrank, mergeScan_eq_specMerge]

/-- C2 witness: each component of the merge-loop theorem applied at concrete
inputs — the scan on a two-symbol word, a concrete arg-min, a concrete rank,
a loop that stops on an unranked minimum, and a loop step that applies a
ranked merge. -/
theorem C2_witness :
    (mergeScan (lc ("a")) (lc ("b")) [lc ("a"), lc ("b")] =
      specMerge (lc ("a")) (lc ("b")) [lc ("a"), lc ("b")])
    ∧ ((1 : Nat) ∈ [3, 1, 2] ∧ ∀ q ∈ [3, 1, 2], (fun n : Nat => n) 1 ≤ (fun n : Nat => n) q)
    ∧ (0 < ([[lc ("a"), lc ("b")]] : List (List PyStr)).length)
    ∧ (bpeLoopF [] 2 [lc ("a"), lc ("b")] = some [lc ("a"), lc ("b")])
    ∧ (bpeLoopF [[lc ("a"), lc ("b")]] 2 [lc ("a"), lc ("b")] =
        if (specMerge (lc ("a")) (lc ("b")) [lc ("a"), lc ("b")]).length = 1
        then some (specMerge (lc ("a")) (lc ("b")) [lc ("a"), lc ("b")])
        else bpeLoopF [[lc ("a"), lc ("b")]] 1
          (specMerge (lc ("a")) (lc ("b")) [lc ("a"), lc ("b")])) :=
  ⟨C2_merge_loop.1 (lc ("a")) (lc ("b")) [lc ("a"), lc ("b")],
   C2_merge_loop.2.1 Nat (fun n => n) [3, 1, 2] 1 (by decide),
   C2_merge_loop.2.2.1 [[lc ("a"), lc ("b")]] (lc ("a"), lc ("b")) 0 (by decide),
   C2_merge_loop.2.2.2.1 [] 1 [lc ("a"), lc ("b")] (lc ("a"), lc ("b"))
     (by decide) (by decide),
   C2_merge_loop.2.2.2.2 [[lc ("a"), lc ("b")]] 1 [lc ("a"), lc ("b")]
     (lc ("a"), lc ("b")) (by decide) (by decide)⟩

/-! ### C7: the merge loop always terminates with a usable word -/

theorem specMerge_length_le_aux (f s : PyStr) :
    ∀ (n : Nat) (w : List PyStr), w.length ≤ n →
      (specMerge f s w).length ≤ w.length := by
  intro n
  induction n with
  | zero =>
    intro w hw
    have : w = [] := List.length_eq_zero.mp (Nat.le_zero.mp hw)
    subst this
    simp [specMerge]
  | succ n ih =>
    intro w hw
    match w with
    | [] => simp [specMerge]
    | [x] => simp [specMerge]
    | x :: y :: rest =>
      show (if x = f ∧ y = s then (f ++ s) :: specMerge f s rest
            else x :: specMerge f s (y :: rest)).length ≤ _
      simp only [List.length_cons] at hw
      split
      · have := ih rest (by omega)
        simp only [List.length_cons]
        omega
      · have := ih (y :: rest) (by simp only [List.length_cons]; omega)
        simp only [List.length_cons] at this ⊢
        omega

theorem specMerge_length_le (f s : PyStr) (w : List PyStr) :
    (specMerge f s w).length ≤ w.length :=
  specMerge_length_le_aux f s w.length w le_rfl

theorem specMerge_length_lt (f s : PyStr) :
    ∀ (w : List PyStr), (f, s) ∈ get_pairs w →
      (specMerge f s w).length < w.length := by
  intro w
  induction w with
  | nil => simp [get_pairs]
  | cons x t ih =>
    intro hmem
    cases t with
    | nil => simp [get_pairs] at hmem
    | cons y rest =>
      have hmem2 : (f, s) = (x, y) ∨ (f, s) ∈ get_pairs (y :: rest) := by
        simpa [get_pairs] using hmem
      show (if x = f ∧ y = s then (f ++ s) :: specMerge f s rest
            else x :: specMerge f s (y :: rest)).length < _
      rcases hmem2 with h1 | h1
      · obtain ⟨hf, hs⟩ := Prod.mk.injEq .. ▸ h1
        rw [if_pos ⟨hf.symm, hs.symm⟩]
        have := specMerge_length_le f s rest
        simp only [List.length_cons]
        omega
      · by_cases hc : x = f ∧ y = s
        · rw [if_pos hc]
          have := specMerge_length_le f s rest
          simp only [List.length_cons]
          omega
        · rw [if_neg hc]
          have := ih h1
          simp only [List.length_cons] at this ⊢
          omega

theorem specMerge_ne_nil {f s : PyStr} {w : List PyStr} (h : w ≠ []) :
    specMerge f s w ≠ [] := by
  match w with
  | [] => exact absurd rfl h
  | [x] => simp [specMerge]
  | x :: y :: rest =>
    show (if x = f ∧ y = s then (f ++ s) :: specMerge f s rest
          else x :: specMerge f s (y :: rest)) ≠ []
    split <;> simp

theorem get_pairs_mem {f s : PyStr} {w : List PyStr}
    (h : (f, s) ∈ get_pairs w) : f ∈ w ∧ s ∈ w := by
  have h2 := List.of_mem_zip h
  exact ⟨h2.1, List.mem_of_mem_tail h2.2⟩

theorem specMerge_mem_aux (f s x : PyStr) :
    ∀ (n : Nat) (w : List PyStr), w.length ≤ n →
      x ∈ specMerge f s w → x ∈ w ∨ x = f ++ s := by
  intro n
  induction n with
  | zero =>
    intro w hw h
    have : w = [] := List.length_eq_zero.mp (Nat.le_zero.mp hw)
    subst this
    simp [specMerge] at h
  | succ n ih =>
    intro w hw h
    match w with
    | [] => simp [specMerge] at h
    | [a] =>
      simp only [specMerge] at h
      left
      exact h
    | a :: y :: rest =>
      simp only [List.length_cons] at hw
      have h2 : x ∈ (if a = f ∧ y = s then (f ++ s) :: specMerge f s rest
          else a :: specMerge f s (y :: rest)) := h
      split at h2
      · rcases List.mem_cons.mp h2 with h3 | h3
        · right; exact h3
        · rcases ih rest (by omega) h3 with h4 | h4
          · left
            exact List.mem_cons_of_mem _ (List.mem_cons_of_mem _ h4)
          · right; exact h4
      · rcases List.mem_cons.mp h2 with h3 | h3
        · left; exact h3 ▸ List.mem_cons_self _ _
        · rcases ih (y :: rest) (by simp only [List.length_cons]; omega) h3 with h4 | h4
          · left; exact List.mem_cons_of_mem _ h4
          · right; exact h4

theorem specMerge_mem {f s x : PyStr} {w : List PyStr}
    (h : x ∈ specMerge f s w) : x ∈ w ∨ x = f ++ s :=
  specMerge_mem_aux f s x w.length w le_rfl h

/-- The central consequence of the loop structure: with any invariant `P`
preserved by a single ranked-pair rewrite, `word.length` rounds of fuel
always produce `some` result (the loop terminates), the result is non-empty,
and `P` carries over.  The claims instantiate `P` with non-emptiness of the
symbols, concatenation-preservation and vocabulary membership. -/
theorem bpeLoopF_spec (merges : List (List PyStr)) (P : List PyStr → Prop)
    (hstep : ∀ (w : List PyStr) (p : PyStr × PyStr), (p.1, p.2) ∈ get_pairs w →
      rankOf merges p ≠ none → P w → P (specMerge p.1 p.2 w)) :
    ∀ (fuel : Nat) (word : List PyStr), word ≠ [] → word.length ≤ fuel →
      P word → ∃ w2, bpeLoopF merges fuel word = some w2 ∧ w2 ≠ [] ∧ P w2 := by
  intro fuel
  induction fuel with
  | zero =>
    intro word hne hlen
    exact absurd (List.length_eq_zero.mp (Nat.le_zero.mp hlen)) hne
  | succ n ih =>
    intro word hne hlen hP
    cases hmin : pyMin (rankKey merges) (get_pairs word) with
    | none =>
      refine ⟨word, ?_, hne, hP⟩
      simp only [bpeLoopF, hmin]
    | some p =>
      by_cases hrank : rankOf merges p = none
      · refine ⟨word, ?_, hne, hP⟩
        simp only [bpeLoopF, hmin]
        rw [if_pos hrank]
      · have hpmem : (p.1, p.2) ∈ get_pairs word := by
          have := pyMin_mem hmin
          simpa using this
        have hlt : (specMerge p.1 p.2 word).length < word.length :=
          specMerge_length_lt p.1 p.2 word hpmem
        have hne2 : specMerge p.1 p.2 word ≠ [] := specMerge_ne_nil hne
        have hP2 : P (specMerge p.1 p.2 word) := hstep word p hpmem hrank hP
        by_cases h1 : (specMerge p.1 p.2 word).length = 1
        · refine ⟨specMerge p.1 p.2 word, ?_, hne2, hP2⟩
          simp only [bpeLoopF, hmin]
          rw [if_neg hrank, mergeScan_eq_specMerge, if_pos h1]
        · obtain ⟨w2, hw2, hw2ne, hw2P⟩ :=
            ih (specMerge p.1 p.2 word) hne2 (by omega) hP2
          refine ⟨w2, ?_, hw2ne, hw2P⟩
          simp only [bpeLoopF, hmin]
          rw [if_neg hrank, mergeScan_eq_specMerge, if_neg h1]
          exact hw2

theorem alookup_append_cases {α β : Type} [DecidableEq α] {l1 l2 : List (α × β)}
    {x : α} {v : β} (h : alookup (l1 ++ l2) x = some v) :
    alookup l1 x = some v ∨ (alookup l1 x = none ∧ alookup l2 x = some v) := by
  cases h1 : alookup l1 x with
  | some w =>
    left
    have h2 : alookup (l1 ++ l2) x = some w := alookup_append_left h1
    rw [h2] at h
    exact h
  | none =>
    right
    rw [alookup_append h1] at h
    exact ⟨rfl, h⟩

theorem initWord_ne_nil (c : Char) (cs : PyStr) : initWord (c :: cs) ≠ [] := by
  intro h
  have := congrArg List.length h
  rw [initWord_length] at this
  simp at this

theorem initWord_all_ne_nil (c : Char) (cs : PyStr) :
    ∀ x ∈ initWord (c :: cs), x ≠ [] := by
  intro x hx
  have hne : (c :: cs) ≠ [] := by simp
  rw [initWord, List.getLast?_eq_getLast _ hne] at hx
  rcases List.mem_append.mp hx with h1 | h1
  · obtain ⟨a, _, ha⟩ := List.mem_map.mp h1
    rw [← ha]
    simp
  · rw [List.mem_singleton.mp h1]
    simp

theorem joinCh_ne_nil {sep : Char} :
    ∀ {l : List PyStr}, l ≠ [] → (∀ x ∈ l, x ≠ []) → joinCh sep l ≠ [] := by
  intro l
  match l with
  | [] => intro h; exact absurd rfl h
  | [x] =>
    intro _ hall
    exact hall x (List.mem_singleton.mpr rfl)
  | x :: y :: t =>
    intro _ _
    show x ++ sep :: joinCh sep (y :: t) ≠ []
    simp

/-- C7: for every non-empty token, `bpe` terminates and returns a non-empty
result string (given that every cached value is itself non-empty, which the
initial cache satisfies and which `bpe` preserves).  The fuel `word.length`
given to the merge loop is always sufficient — the loop terminates of its
own accord — and the result is the space-join of a non-empty word of
non-empty subword units. -/
theorem C7_bpe_total (merges : List (List PyStr)) (cache : Cache) (token : PyStr)
    (htok : token ≠ []) (hcache : ∀ t r, alookup cache t = some r → r ≠ []) :
    ∃ r c2, bpe merges cache token = some (r, c2) ∧ r ≠ [] ∧
      ∀ t r2, alookup c2 t = some r2 → r2 ≠ [] := by
  cases hca : alookup cache token with
  | some v =>
    exact ⟨v, cache, by simp only [bpe, hca], hcache _ _ hca, hcache⟩
  | none =>
    cases token with
    | nil => exact absurd rfl htok
    | cons c cs =>
      by_cases hp : get_pairs (initWord (c :: cs)) = []
      · refine ⟨(c :: cs) ++ eowM, cache, ?_, by simp, hcache⟩
        simp only [bpe, hca]
        rw [if_pos hp]
      · obtain ⟨w2, hw2, hw2ne, hw2P⟩ :=
          bpeLoopF_spec merges (fun w => ∀ x ∈ w, x ≠ [])
            (fun w p hpm hr hP x hx => by
              rcases specMerge_mem hx with h1 | h1
              · exact hP x h1
              · rw [h1]
                have hf := (get_pairs_mem hpm).1
                have := hP p.1 hf
                intro hnil
                rcases List.append_eq_nil.mp hnil with ⟨h2, _⟩
                exact this h2)
            (initWord (c :: cs)).length (initWord (c :: cs))
            (initWord_ne_nil c cs) le_rfl (initWord_all_ne_nil c cs)
        refine ⟨joinCh ' ' w2, cache ++ [(c :: cs, joinCh ' ' w2)], ?_, ?_, ?_⟩
        · simp only [bpe, hca]
          rw [if_neg hp, hw2]
        · exact joinCh_ne_nil hw2ne hw2P
        · intro t r2 hl
          rcases alookup_append_cases hl with h1 | ⟨_, h2⟩
          · exact hcache t r2 h1
          · rw [alookup_cons] at h2
            split at h2
            · cases h2
              exact joinCh_ne_nil hw2ne hw2P
            · cases h2

/-- C7 witness: a concrete non-empty token with the (non-empty-valued) empty
cache and no merge rules. -/
theorem C7_witness :
    ∃ r c2, bpe [] [] (lc ("ab")) = some (r, c2) ∧ r ≠ [] ∧
      ∀ t r2, alookup c2 t = some r2 → r2 ≠ [] :=
  C7_bpe_total [] [] (lc ("ab")) (by decide)
    (fun t r h => by simp [alookup] at h)

/-! ### C6: Encoder and Decoder as inverses; density of the id range -/

theorem C6_encoder_decoder (artifact : PyStr) :
    (∀ t, t ∈ (mkTokenizer artifact).vocab →
       ∃ i, alookup (mkTokenizer artifact).encoder t = some i ∧
            alookup (mkTokenizer artifact).decoder i = some t ∧
            i < (mkTokenizer artifact).vocab.length)
    ∧ ((mkTokenizer artifact).vocab.Nodup →
       ∀ i, i < (mkTokenizer artifact).vocab.length →
         ∃ t, alookup (mkTokenizer artifact).decoder i = some t ∧
              alookup (mkTokenizer artifact).encoder t = some i) := by
  simp only [mkTokenizer]
  constructor
  · intro t ht
    obtain ⟨i, hi⟩ := enc_lookup_isSome ht
    exact ⟨i, hi, dec_of_enc hi,
      (List.getElem?_eq_some.mp (enc_lookup_getElem hi).1).1⟩
  · intro hnd i hi
    obtain ⟨j, hj⟩ := enc_lookup_isSome (List.getElem_mem hi)
    have hgj := (enc_lookup_getElem hj).1
    have hij : i = j := by
      apply List.getElem?_inj hi hnd
      rw [hgj, List.getElem?_eq_getElem hi]
    subst hij
    exact ⟨_, dec_of_enc hj, hj⟩

theorem singleton_injective : Function.Injective (fun c : Char => [c]) := by
  intro a b h
  exact (List.cons.injEq .. ▸ h).1

set_option maxRecDepth 4000 in
set_option maxHeartbeats 1600000 in
theorem b2u_snd_nodup : (b2u.map Prod.snd).Nodup := by decide

theorem base_nodup : (b2u.map (fun p => [p.2])).Nodup := by
  have h : b2u.map (fun p => [p.2]) = (b2u.map Prod.snd).map (fun c => [c]) := by
    rw [List.map_map]
    rfl
  rw [h]
  exact b2u_snd_nodup.map singleton_injective

theorem appendEow_injective : Function.Injective (fun v : PyStr => v ++ eowM) := by
  intro a b h
  exact List.append_cancel_right h

theorem base_length_one : ∀ x ∈ b2u.map (fun p => [p.2]), x.length = 1 := by
  intro x hx
  obtain ⟨p, _, hp⟩ := List.mem_map.mp hx
  rw [← hp]
  rfl

/-- The vocabulary built from an empty merge table has no duplicates: the
256 one-character byte symbols are pairwise distinct, their 5-character
end-of-word forms likewise, and the four groups are separated by length. -/
theorem mkVocab_nil_nodup : (mkVocab []).Nodup := by
  show ((b2u.map (fun p => [p.2])) ++ (b2u.map (fun p => [p.2])).map (· ++ eowM) ++
    ([] : List (List PyStr)).map List.flatten ++ [sotS, eotS]).Nodup
  simp only [List.map_nil, List.append_nil]
  have hlen1 := base_length_one
  have hlen5 : ∀ x ∈ (b2u.map (fun p => [p.2])).map (· ++ eowM), x.length = 5 := by
    intro x hx
    obtain ⟨v, hv, he⟩ := List.mem_map.mp hx
    rw [← he]
    simp only [List.length_append]
    rw [hlen1 v hv]
    rfl
  rw [List.append_assoc, List.nodup_append]
  refine ⟨base_nodup, ?_, ?_⟩
  · rw [List.nodup_append]
    refine ⟨base_nodup.map appendEow_injective, by decide, ?_⟩
    intro x hx hx2
    have h5 := hlen5 x hx
    rw [List.mem_cons, List.mem_singleton] at hx2
    rcases hx2 with h | h
    · rw [h] at h5; cases h5
    · rw [h] at h5; cases h5
  · intro x hx hx2
    have h1 := hlen1 x hx
    rcases List.mem_append.mp hx2 with h | h
    · rw [hlen5 x h] at h1; cases h1
    · rw [List.mem_cons, List.mem_singleton] at h
      rcases h with h | h
      · rw [h] at h1; cases h1
      · rw [h] at h1; cases h1

theorem noMergeArt_vocab :
    (mkTokenizer noMergeArt).vocab = mkVocab [] := rfl

set_option maxRecDepth 4000 in
/-- C6 witness: the inverse property at the start-of-text token of a
duplicate-free tokenizer, and the density at id 0. -/
theorem C6_witness :
    (∃ i, alookup (mkTokenizer noMergeArt).encoder sotS = some i ∧
          alookup (mkTokenizer noMergeArt).decoder i = some sotS ∧
          i < (mkTokenizer noMergeArt).vocab.length)
    ∧ (∃ t, alookup (mkTokenizer noMergeArt).decoder 0 = some t ∧
            alookup (mkTokenizer noMergeArt).encoder t = some 0) := by
  have hmem : sotS ∈ (mkTokenizer noMergeArt).vocab := by
    rw [noMergeArt_vocab]
    show sotS ∈ (b2u.map (fun p => [p.2])) ++ (b2u.map (fun p => [p.2])).map (· ++ eowM) ++
      ([] : List (List PyStr)).map List.flatten ++ [sotS, eotS]
    refine List.mem_append.mpr (Or.inr ?_)
    simp
  have hnd : (mkTokenizer noMergeArt).vocab.Nodup := by
    rw [noMergeArt_vocab]
    exact mkVocab_nil_nodup
  have hN : 0 < (mkTokenizer noMergeArt).vocab.length := by
    rw [noMergeArt_vocab]
    show 0 < (mkVocab []).length
    simp [mkVocab]
  exact ⟨(C6_encoder_decoder noMergeArt).1 sotS hmem,
         (C6_encoder_decoder noMergeArt).2 hnd 0 hN⟩

set_option maxRecDepth 8000 in
set_option maxHeartbeats 4000000 in
/-- C6 counterexample: with an artifact whose two merge lines are identical,
the vocabulary has the string `ab` at indices 512 and 513; the encoder keeps
only the last binding, so id 512 is in neither Encoder's values nor Decoder's
keys — the ids present do **not** span `0..N-1`. -/
theorem C6_counterexample :
    (mkTokenizer dupArt).vocab.length = 516 ∧ 512 < 516 ∧
    alookup (mkTokenizer dupArt).decoder 512 = none := by
  refine ⟨by decide, by norm_num, ?_⟩
  cases h : alookup (mkTokenizer dupArt).decoder 512 with
  | none => rfl
  | some t =>
    exfalso
    simp only [mkTokenizer] at h
    rw [alookup_pyDict] at h
    have hm := List.mem_reverse.mp (alookup_some_mem h)
    obtain ⟨p, hp, hpe⟩ := List.mem_map.mp hm
    obtain ⟨hp2, hp1⟩ := Prod.mk.injEq .. ▸ hpe
    have hpent : p = (t, 512) := by
      obtain ⟨a, b⟩ := p
      simp only at hp1 hp2
      rw [hp1, hp2]
    subst hpent
    have hlk : alookup (pyDict ((mkVocab (loadMerges (splitCh nlC dupArt))).zip
        (List.range (mkVocab (loadMerges (splitCh nlC dupArt))).length))) t = some 512 :=
      alookup_of_mem_nodup hp (pyDict_keys_nodup _)
    have hmax := (enc_lookup_getElem hlk).2
    have h512 : (mkVocab (loadMerges (splitCh nlC dupArt)))[512]? = some t :=
      (enc_lookup_getElem hlk).1
    have hab : (mkVocab (loadMerges (splitCh nlC dupArt)))[512]? = some (lc ("ab")) := by
      decide
    rw [hab] at h512
    cases h512
    have h513 : (mkVocab (loadMerges (splitCh nlC dupArt)))[513]? = some (lc ("ab")) := by
      decide
    have := hmax 513 h513
    omega

/-! ### C9: decode error behaviour -/

theorem omap_none_of_mem {α β : Type} {f : α → Option β} {l : List α} {x : α}
    (hx : x ∈ l) (hf : f x = none) : omap f l = none := by
  induction l with
  | nil => simp at hx
  | cons a t ih =>
    simp only [omap]
    rcases List.mem_cons.mp hx with h1 | h1
    · rw [← h1, hf]
    · cases ha : f a with
      | none => rfl
      | some y => rw [ih h1]; rfl

theorem dec_entry_enc {vocab : List PyStr} {i : Nat} {t : PyStr}
    (h : alookup (pyDict ((pyDict (vocab.zip (List.range vocab.length))).map
      (fun p => (p.2, p.1)))) i = some t) :
    alookup (pyDict (vocab.zip (List.range vocab.length))) t = some i := by
  rw [alookup_pyDict] at h
  have hm := List.mem_reverse.mp (alookup_some_mem h)
  obtain ⟨p, hp, hpe⟩ := List.mem_map.mp hm
  obtain ⟨hp2, hp1⟩ := Prod.mk.injEq .. ▸ hpe
  have hpent : p = (t, i) := by
    obtain ⟨a, b⟩ := p
    simp only at hp1 hp2
    rw [hp1, hp2]
  subst hpent
  exact alookup_of_mem_nodup hp (pyDict_keys_nodup _)

theorem decoder_key_lt (artifact : PyStr) (i : Nat) (t : PyStr)
    (h : alookup (mkTokenizer artifact).decoder i = some t) :
    i < (mkTokenizer artifact).vocab.length := by
  simp only [mkTokenizer] at h ⊢
  have henc := dec_entry_enc h
  exact (List.getElem?_eq_some.mp (enc_lookup_getElem henc).1).1

/-- Decoding a single id, stated symbolically so that no dictionary is ever
evaluated: if the id maps to a token whose characters all have byte values,
the result is the replacement-decoded, marker-replaced text of those bytes. -/
theorem decode_single (T : Tokenizer) (i : Nat) (sym : PyStr) (bytes : List Nat)
    (hd : alookup T.decoder i = some sym)
    (hb : omap byteDec sym = some bytes) :
    decode T [i] = some (pyReplace (utf8Dec bytes)) := by
  simp only [decode]
  have h1 : omap (fun j => alookup T.decoder j) [i] = some [sym] := by
    simp only [omap, hd]
    rfl
  rw [h1]
  simp only [List.flatten_cons, List.flatten_nil, List.append_nil]
  rw [hb]

set_option maxRecDepth 8000 in
set_option maxHeartbeats 1000000 in
/-- C9: `decode` raises a lookup error whenever some id is not a Decoder key
— in particular every id at or above the vocabulary size, such as
`decode([N])` with `N = 514` for a merge-free tokenizer — while an invalid
UTF-8 byte sequence produced by the inverse byte map never fails hard: the
lone byte 255 (the base symbol `ÿ` at id 187) decodes to the replacement
character U+FFFD. -/
theorem C9_decode_errors :
    (∀ (artifact : PyStr) (ids : List Nat) (i : Nat), i ∈ ids →
        (mkTokenizer artifact).vocab.length ≤ i →
        decode (mkTokenizer artifact) ids = none)
    ∧ decode (mkTokenizer noMergeArt) [514] = none
    ∧ decode (mkTokenizer noMergeArt) [187] = some [uRepl] := by
  have h1 : ∀ (artifact : PyStr) (ids : List Nat) (i : Nat), i ∈ ids →
      (mkTokenizer artifact).vocab.length ≤ i →
      decode (mkTokenizer artifact) ids = none := by
    intro a ids i hmem hge
    have hnone : alookup (mkTokenizer a).decoder i = none := by
      cases hd : alookup (mkTokenizer a).decoder i with
      | none => rfl
      | some t => exact absurd (decoder_key_lt a i t hd) (by omega)
    simp only [decode, omap_none_of_mem hmem hnone]
  refine ⟨h1, ?_, ?_⟩
  · apply h1 noMergeArt [514] 514 (by simp)
    rw [noMergeArt_vocab]
    decide
  · have hvget : (mkVocab [])[187]? = some [Char.ofNat 255] := by decide
    have hvmem : [Char.ofNat 255] ∈ mkVocab [] := List.getElem?_mem hvget
    obtain ⟨j, hj⟩ := enc_lookup_isSome hvmem
    have hgj := (enc_lookup_getElem hj).1
    have hjlt := (List.getElem?_eq_some.mp hgj).1
    have hj187 : j = 187 :=
      List.getElem?_inj hjlt mkVocab_nil_nodup (hgj.trans hvget.symm)
    subst hj187
    have hdec : alookup (mkTokenizer noMergeArt).decoder 187 =
        some [Char.ofNat 255] := by
      simp only [mkTokenizer]
      show alookup (pyDict ((pyDict ((mkVocab []).zip
        (List.range (mkVocab []).length))).map (fun p => (p.2, p.1)))) 187 = _
      exact dec_of_enc hj
    have hres := decode_single (mkTokenizer noMergeArt) 187 [Char.ofNat 255] [255]
      hdec (by decide)
    rw [hres]
    decide

set_option maxRecDepth 8000 in
/-- C9 witness: the missing-id rule applied to the concrete id 600 of the
merge-free tokenizer. -/
theorem C9_witness : decode (mkTokenizer noMergeArt) [600] = none :=
  C9_decode_errors.1 noMergeArt [600] 600 (by simp)
    (by rw [noMergeArt_vocab]; decide)

/-! ### UTF-8 round trip -/

theorem char_toNat_ofNat {n : Nat} (h : n.isValidChar) : (Char.ofNat n).toNat = n := by
  rw [Char.ofNat, dif_pos h]
  rfl

theorem char_valid_range (c : Char) :
    c.toNat < 55296 ∨ (57344 ≤ c.toNat ∧ c.toNat < 1114112) := by
  have hv := c.valid
  unfold UInt32.isValidChar Nat.isValidChar at hv
  exact hv

theorem utf8Char_lt (c : Char) : ∀ b ∈ utf8Char c, b < 256 := by
  intro b hb
  have hv := char_valid_range c
  rw [utf8Char] at hb
  by_cases h1 : c.toNat < 128
  · rw [if_pos h1] at hb
    simp only [List.mem_singleton] at hb
    omega
  · rw [if_neg h1] at hb
    by_cases h2 : c.toNat < 2048
    · rw [if_pos h2] at hb
      simp only [List.mem_cons, List.not_mem_nil, or_false] at hb
      rcases hb with hb | hb <;> omega
    · rw [if_neg h2] at hb
      by_cases h3 : c.toNat < 65536
      · rw [if_pos h3] at hb
        simp only [List.mem_cons, List.not_mem_nil, or_false] at hb
        rcases hb with hb | hb | hb <;> omega
      · rw [if_neg h3] at hb
        simp only [List.mem_cons, List.not_mem_nil, or_false] at hb
        rcases hb with hb | hb | hb | hb <;> omega

theorem utf8Dec_one (b : Nat) (t : List Nat) (h : b < 128) :
    utf8Dec (b :: t) = Char.ofNat b :: utf8Dec t := by
  conv_lhs => rw [utf8Dec.eq_def]
  split
  · rename_i heq
    cases heq
  · rename_i heq
    injection heq with hb ht
    subst hb
    subst ht
    rw [if_pos h]

theorem utf8Dec_two (b b1 : Nat) (t : List Nat) (h0 : 194 ≤ b) (h1 : b < 224)
    (h2 : 128 ≤ b1) (h3 : b1 < 192) :
    utf8Dec (b :: b1 :: t) = Char.ofNat ((b - 192) * 64 + (b1 - 128)) :: utf8Dec t := by
  conv_lhs => rw [utf8Dec.eq_def]
  split
  · rename_i heq
    cases heq
  · rename_i heq
    injection heq with hb ht
    subst hb
    subst ht
    rw [if_neg (by omega), if_neg (by omega), if_pos (by omega)]
    split
    · rename_i heq2
      cases heq2
    · rename_i heq2
      injection heq2 with hb2 ht2
      subst hb2
      subst ht2
      rw [if_pos (show 128 ≤ b1 ∧ b1 < 192 from ⟨h2, h3⟩)]

theorem utf8Dec_three (b b1 b2 : Nat) (t : List Nat) (h0 : 224 ≤ b) (h1 : b < 240)
    (h2 : 128 ≤ b1) (h3 : b1 < 192) (h4 : 128 ≤ b2) (h5 : b2 < 192)
    (h6 : b ≠ 224 ∨ 160 ≤ b1) (h7 : b ≠ 237 ∨ b1 < 160) :
    utf8Dec (b :: b1 :: b2 :: t) =
      Char.ofNat ((b - 224) * 4096 + (b1 - 128) * 64 + (b2 - 128)) :: utf8Dec t := by
  conv_lhs => rw [utf8Dec.eq_def]
  split
  · rename_i heq
    cases heq
  · rename_i heq
    injection heq with hb ht
    subst hb
    subst ht
    rw [if_neg (by omega), if_neg (by omega), if_neg (by omega), if_pos (by omega)]
    split
    · rename_i heq2
      cases heq2
    · rename_i heq2
      injection heq2 with hb2 ht2
      subst hb2
      subst ht2
      rw [if_pos (show (128 ≤ b1 ∧ b1 < 192) ∧ (b ≠ 224 ∨ 160 ≤ b1) ∧
        (b ≠ 237 ∨ b1 < 160) from ⟨⟨h2, h3⟩, h6, h7⟩)]
      split
      · rename_i heq3
        cases heq3
      · rename_i heq3
        injection heq3 with hb3 ht3
        subst hb3
        subst ht3
        rw [if_pos (show 128 ≤ b2 ∧ b2 < 192 from ⟨h4, h5⟩)]

theorem utf8Dec_four (b b1 b2 b3 : Nat) (t : List Nat) (h0 : 240 ≤ b) (h1 : b < 245)
    (h2 : 128 ≤ b1) (h3 : b1 < 192) (h4 : 128 ≤ b2) (h5 : b2 < 192)
    (h6 : 128 ≤ b3) (h7 : b3 < 192)
    (h8 : b ≠ 240 ∨ 144 ≤ b1) (h9 : b ≠ 244 ∨ b1 < 144) :
    utf8Dec (b :: b1 :: b2 :: b3 :: t) =
      Char.ofNat ((b - 240) * 262144 + (b1 - 128) * 4096 + (b2 - 128) * 64 +
        (b3 - 128)) :: utf8Dec t := by
  conv_lhs => rw [utf8Dec.eq_def]
  split
  · rename_i heq
    cases heq
  · rename_i heq
    injection heq with hb ht
    subst hb
    subst ht
    rw [if_neg (by omega), if_neg (by omega), if_neg (by omega), if_neg (by omega),
      if_pos (by omega)]
    split
    · rename_i heq2
      cases heq2
    · rename_i heq2
      injection heq2 with hb2 ht2
      subst hb2
      subst ht2
      rw [if_pos (show (128 ≤ b1 ∧ b1 < 192) ∧ (b ≠ 240 ∨ 144 ≤ b1) ∧
        (b ≠ 244 ∨ b1 < 144) from ⟨⟨h2, h3⟩, h8, h9⟩)]
      split
      · rename_i heq3
        cases heq3
      · rename_i heq3
        injection heq3 with hb3 ht3
        subst hb3
        subst ht3
        rw [if_pos (show 128 ≤ b2 ∧ b2 < 192 from ⟨h4, h5⟩)]
        split
        · rename_i heq4
          cases heq4
        · rename_i heq4
          injection heq4 with hb4 ht4
          subst hb4
          subst ht4
          rw [if_pos (show 128 ≤ b3 ∧ b3 < 192 from ⟨h6, h7⟩)]


theorem utf8Dec_utf8Char (c : Char) (rest : List Nat) :
    utf8Dec (utf8Char c ++ rest) = c :: utf8Dec rest := by
  have hv := char_valid_range c
  by_cases h1 : c.toNat < 128
  · have he : utf8Char c = [c.toNat] := by rw [utf8Char, if_pos h1]
    rw [he, List.singleton_append, utf8Dec_one _ _ h1, Char.ofNat_toNat]
  · by_cases h2 : c.toNat < 2048
    · have he : utf8Char c = [192 + c.toNat / 64, 128 + c.toNat % 64] := by
        rw [utf8Char, if_neg h1, if_pos h2]
      rw [he]
      simp only [List.cons_append, List.nil_append]
      rw [utf8Dec_two _ _ _ (by omega) (by omega) (by omega) (by omega)]
      rw [show (192 + c.toNat / 64 - 192) * 64 + (128 + c.toNat % 64 - 128) = c.toNat
        by omega]
      rw [Char.ofNat_toNat]
    · by_cases h3 : c.toNat < 65536
      · have he : utf8Char c =
            [224 + c.toNat / 4096, 128 + c.toNat / 64 % 64, 128 + c.toNat % 64] := by
          rw [utf8Char, if_neg h1, if_neg h2, if_pos h3]
        rw [he]
        simp only [List.cons_append, List.nil_append]
        rw [utf8Dec_three _ _ _ _ (by omega) (by omega) (by omega) (by omega) (by omega)
          (by omega) (by omega) (by omega)]
        rw [show (224 + c.toNat / 4096 - 224) * 4096 + (128 + c.toNat / 64 % 64 - 128) * 64
            + (128 + c.toNat % 64 - 128) = c.toNat by omega]
        rw [Char.ofNat_toNat]
      · have h4 : c.toNat < 1114112 := by omega
        have he : utf8Char c = [240 + c.toNat / 262144, 128 + c.toNat / 4096 % 64,
            128 + c.toNat / 64 % 64, 128 + c.toNat % 64] := by
          rw [utf8Char, if_neg h1, if_neg h2, if_neg h3]
        rw [he]
        simp only [List.cons_append, List.nil_append]
        rw [utf8Dec_four _ _ _ _ _ (by omega) (by omega) (by omega) (by omega) (by omega)
          (by omega) (by omega) (by omega) (by omega) (by omega)]
        rw [show (240 + c.toNat / 262144 - 240) * 262144 + (128 + c.toNat / 4096 % 64 - 128)
            * 4096 + (128 + c.toNat / 64 % 64 - 128) * 64 + (128 + c.toNat % 64 - 128)
            = c.toNat by omega]
        rw [Char.ofNat_toNat]

theorem utf8Str_cons (c : Char) (l : PyStr) :
    utf8Str (c :: l) = utf8Char c ++ utf8Str l := by
  simp [utf8Str]

theorem utf8Str_append (a b : PyStr) : utf8Str (a ++ b) = utf8Str a ++ utf8Str b := by
  simp [utf8Str]

theorem utf8Dec_utf8Str (l : PyStr) (rest : List Nat) :
    utf8Dec (utf8Str l ++ rest) = l ++ utf8Dec rest := by
  induction l with
  | nil => rfl
  | cons c t ih =>
    rw [utf8Str_cons, List.append_assoc, utf8Dec_utf8Char, ih]
    rfl

theorem utf8Dec_utf8Str_nil (l : PyStr) : utf8Dec (utf8Str l) = l := by
  have h := utf8Dec_utf8Str l []
  rwa [List.append_nil, show utf8Dec [] = [] from rfl, List.append_nil] at h

theorem utf8Str_inj {a b : PyStr} (h : utf8Str a = utf8Str b) : a = b := by
  have := congrArg utf8Dec h
  rwa [utf8Dec_utf8Str_nil, utf8Dec_utf8Str_nil] at this

theorem utf8Str_lt (l : PyStr) : ∀ b ∈ utf8Str l, b < 256 := by
  intro b hb
  obtain ⟨bs, hbs, hbm⟩ := List.mem_flatten.mp hb
  obtain ⟨c, _, hc⟩ := List.mem_map.mp hbs
  exact utf8Char_lt c b (hc ▸ hbm)

/-! ### Traversal lemmas and the byte-symbol translation -/

theorem omap_append {α β : Type} {f : α → Option β} :
    ∀ (l1 : List α) {l2 : List α} {r1 r2 : List β}, omap f l1 = some r1 →
      omap f l2 = some r2 → omap f (l1 ++ l2) = some (r1 ++ r2) := by
  intro l1
  induction l1 with
  | nil =>
    intro l2 r1 r2 h1 h2
    have h1' : some [] = some r1 := h1
    cases h1'
    simpa using h2
  | cons a t ih =>
    intro l2 r1 r2 h1 h2
    simp only [omap] at h1
    cases ha : f a with
    | none => rw [ha] at h1; cases h1
    | some y =>
      rw [ha] at h1
      cases ht : omap f t with
      | none => rw [ht] at h1; cases h1
      | some rt =>
        rw [ht] at h1
        have h1' : some (y :: rt) = some r1 := h1
        cases h1'
        rw [List.cons_append]
        simp only [omap]
        rw [ha, ih ht h2]
        rfl

theorem omap_mem {α β : Type} {f : α → Option β} :
    ∀ {l : List α} {r : List β}, omap f l = some r → ∀ y ∈ r, ∃ x ∈ l, f x = some y := by
  intro l
  induction l with
  | nil =>
    intro r h y hy
    have h' : some [] = some r := h
    cases h'
    simp at hy
  | cons a t ih =>
    intro r h y hy
    simp only [omap] at h
    cases ha : f a with
    | none => rw [ha] at h; cases h
    | some z =>
      rw [ha] at h
      cases ht : omap f t with
      | none => rw [ht] at h; cases h
      | some rt =>
        rw [ht] at h
        have h' : some (z :: rt) = some r := h
        cases h'
        rcases List.mem_cons.mp hy with h1 | h1
        · exact ⟨a, List.mem_cons_self _ _, h1 ▸ ha⟩
        · obtain ⟨x, hx, hfx⟩ := ih ht y h1
          exact ⟨x, List.mem_cons_of_mem _ hx, hfx⟩

theorem omap_roundtrip {α β : Type} {f : α → Option β} {g : β → Option α} :
    ∀ (l : List α), (∀ x ∈ l, ∃ y, f x = some y ∧ g y = some x) →
      ∃ r, omap f l = some r ∧ omap g r = some l := by
  intro l
  induction l with
  | nil => exact fun _ => ⟨[], rfl, rfl⟩
  | cons a t ih =>
    intro h
    obtain ⟨y, hy, hgy⟩ := h a (List.mem_cons_self a t)
    obtain ⟨r, hr, hgr⟩ := ih (fun x hx => h x (List.mem_cons_of_mem _ hx))
    refine ⟨y :: r, ?_, ?_⟩
    · simp only [omap]
      rw [hy, hr]
      rfl
    · simp only [omap]
      rw [hgy, hgr]
      rfl

set_option maxRecDepth 4000 in
set_option maxHeartbeats 1600000 in
theorem byte_rt : ∀ b, b < 256 → (byteEnc b).bind byteDec = some b := by decide

set_option maxRecDepth 4000 in
set_option maxHeartbeats 1600000 in
theorem b2u_no_space : ∀ p ∈ b2u, p.2 ≠ ' ' := by decide

theorem byte_enc_dec {b : Nat} (hb : b < 256) :
    ∃ ch, byteEnc b = some ch ∧ byteDec ch = some b := by
  have h := byte_rt b hb
  cases he : byteEnc b with
  | none => rw [he] at h; cases h
  | some ch =>
    rw [he] at h
    exact ⟨ch, rfl, h⟩

theorem byte_translate {bytes : List Nat} (hb : ∀ b ∈ bytes, b < 256) :
    ∃ token, omap byteEnc bytes = some token ∧ omap byteDec token = some bytes :=
  omap_roundtrip bytes (fun b hbm => byte_enc_dec (hb b hbm))

theorem token_char_facts {bytes : List Nat} {token : PyStr}
    (h : omap byteEnc bytes = some token) :
    ∀ ch ∈ token, (∃ b, (b, ch) ∈ b2u) ∧ ch ≠ ' ' := by
  intro ch hch
  obtain ⟨b, _, hfb⟩ := omap_mem h ch hch
  have hmem : (b, ch) ∈ b2u := alookup_some_mem hfb
  exact ⟨⟨b, hmem⟩, b2u_no_space _ hmem⟩

/-! ### Splitting the space-join back apart -/

theorem splitCh_no_sep {sep : Char} : ∀ {x : PyStr}, sep ∉ x → splitCh sep x = [x] := by
  intro x
  induction x with
  | nil => intro _; rfl
  | cons c t ih =>
    intro h
    have hc : c ≠ sep := fun he => h (he ▸ List.mem_cons_self c t)
    simp only [splitCh]
    rw [if_neg hc, ih (fun hm => h (List.mem_cons_of_mem _ hm))]

theorem splitCh_append_sep {sep : Char} : ∀ {x r : PyStr}, sep ∉ x →
    splitCh sep (x ++ sep :: r) = x :: splitCh sep r := by
  intro x
  induction x with
  | nil =>
    intro r _
    simp only [List.nil_append, splitCh]
    rw [if_pos trivial]
  | cons c t ih =>
    intro r h
    have hc : c ≠ sep := fun he => h (he ▸ List.mem_cons_self c t)
    simp only [List.cons_append, splitCh]
    rw [if_neg hc]
    simp only [List.append_eq]
    rw [ih (fun hm => h (List.mem_cons_of_mem _ hm))]

theorem splitCh_joinCh {sep : Char} : ∀ (l : List PyStr), l ≠ [] →
    (∀ x ∈ l, sep ∉ x) → splitCh sep (joinCh sep l) = l := by
  intro l
  induction l with
  | nil => intro h; exact absurd rfl h
  | cons x t ih =>
    intro _ hall
    cases t with
    | nil => exact splitCh_no_sep (hall x (List.mem_cons_self _ _))
    | cons y t2 =>
      rw [show joinCh sep (x :: y :: t2) = x ++ sep :: joinCh sep (y :: t2) from rfl]
      rw [splitCh_append_sep (hall x (List.mem_cons_self _ _))]
      rw [ih (by simp) (fun z hz => hall z (List.mem_cons_of_mem _ hz))]

/-! ### Concatenation and membership invariants of the merge loop -/

theorem rank_mem {merges : List (List PyStr)} {p : PyStr × PyStr} {k : Nat}
    (h : rankOf merges p = some k) : [p.1, p.2] ∈ merges := by
  have hm := pyDict_entry_mem (alookup_some_mem h)
  exact List.getElem?_mem (mem_zip_range_getElem hm)

theorem flatten_map_singleton : ∀ (l : PyStr), (l.map (fun c => [c])).flatten = l := by
  intro l
  induction l with
  | nil => rfl
  | cons c t ih =>
    simp only [List.map_cons, List.flatten_cons, ih, List.singleton_append]

theorem initWord_flatten (c : Char) (cs : PyStr) :
    (initWord (c :: cs)).flatten = (c :: cs) ++ eowM := by
  have hne : (c :: cs : PyStr) ≠ [] := by simp
  rw [initWord, List.getLast?_eq_getLast _ hne]
  rw [List.flatten_append, flatten_map_singleton]
  simp only [List.flatten_cons, List.flatten_nil, List.append_nil]
  have hsplit : (c :: cs).dropLast ++ ((c :: cs).getLast hne :: eowM)
      = ((c :: cs).dropLast ++ [(c :: cs).getLast hne]) ++ eowM := by
    rw [List.append_assoc, List.singleton_append]
  rw [hsplit, List.dropLast_append_getLast hne]

theorem specMerge_flatten_aux (f s : PyStr) :
    ∀ (n : Nat) (w : List PyStr), w.length ≤ n →
      (specMerge f s w).flatten = w.flatten := by
  intro n
  induction n with
  | zero =>
    intro w hw
    have hw0 : w = [] := List.length_eq_zero.mp (Nat.le_zero.mp hw)
    subst hw0
    rfl
  | succ n ih =>
    intro w hw
    match w with
    | [] => rfl
    | [x] => rfl
    | x :: y :: rest =>
      simp only [List.length_cons] at hw
      show (if x = f ∧ y = s then (f ++ s) :: specMerge f s rest
            else x :: specMerge f s (y :: rest)).flatten = (x :: y :: rest).flatten
      split
      · next hxy =>
        rw [List.flatten_cons, ih rest (by omega)]
        rw [List.flatten_cons, List.flatten_cons, hxy.1, hxy.2, List.append_assoc]
      · rw [List.flatten_cons, ih (y :: rest) (by simp only [List.length_cons]; omega)]
        rfl

theorem specMerge_flatten (f s : PyStr) (w : List PyStr) :
    (specMerge f s w).flatten = w.flatten :=
  specMerge_flatten_aux f s w.length w le_rfl

/-! ### Vocabulary membership of the merge-loop symbols -/

theorem mem_vocab_base {merges : List (List PyStr)} {ch : Char}
    (h : ∃ b, (b, ch) ∈ b2u) : [ch] ∈ mkVocab merges := by
  obtain ⟨b, hb⟩ := h
  show [ch] ∈ (b2u.map (fun p => [p.2])) ++ (b2u.map (fun p => [p.2])).map (· ++ eowM) ++
    merges.map List.flatten ++ [sotS, eotS]
  exact List.mem_append_left _ (List.mem_append_left _ (List.mem_append_left _
    (List.mem_map_of_mem (fun p => [p.2]) hb)))

theorem mem_vocab_eow {merges : List (List PyStr)} {ch : Char}
    (h : ∃ b, (b, ch) ∈ b2u) : (ch :: eowM) ∈ mkVocab merges := by
  obtain ⟨b, hb⟩ := h
  show (ch :: eowM) ∈ (b2u.map (fun p => [p.2])) ++
    (b2u.map (fun p => [p.2])).map (· ++ eowM) ++ merges.map List.flatten ++ [sotS, eotS]
  apply List.mem_append_left _ (List.mem_append_left _ (List.mem_append_right _ ?_))
  have hm : [ch] ∈ b2u.map (fun p => [p.2]) := List.mem_map_of_mem (fun p => [p.2]) hb
  have he : (fun v : PyStr => v ++ eowM) [ch] = ch :: eowM := rfl
  exact he ▸ List.mem_map_of_mem (· ++ eowM) hm

theorem mem_vocab_merge {merges : List (List PyStr)} {f s : PyStr}
    (h : [f, s] ∈ merges) : (f ++ s) ∈ mkVocab merges := by
  show (f ++ s) ∈ (b2u.map (fun p => [p.2])) ++
    (b2u.map (fun p => [p.2])).map (· ++ eowM) ++ merges.map List.flatten ++ [sotS, eotS]
  apply List.mem_append_left _ (List.mem_append_right _ ?_)
  have he : List.flatten [f, s] = f ++ s := by simp
  exact he ▸ List.mem_map_of_mem List.flatten h

theorem sot_mem_vocab {merges : List (List PyStr)} : sotS ∈ mkVocab merges := by
  show sotS ∈ (b2u.map (fun p => [p.2])) ++
    (b2u.map (fun p => [p.2])).map (· ++ eowM) ++ merges.map List.flatten ++ [sotS, eotS]
  exact List.mem_append_right _ (List.mem_cons_self _ _)

theorem eot_mem_vocab {merges : List (List PyStr)} : eotS ∈ mkVocab merges := by
  show eotS ∈ (b2u.map (fun p => [p.2])) ++
    (b2u.map (fun p => [p.2])).map (· ++ eowM) ++ merges.map List.flatten ++ [sotS, eotS]
  exact List.mem_append_right _ (List.mem_cons_of_mem _ (List.mem_cons_self _ _))

theorem eow_no_space : ' ' ∉ eowM := by decide

theorem initWord_facts {merges : List (List PyStr)} (c : Char) (cs : PyStr)
    (hchars : ∀ ch ∈ (c :: cs : PyStr), (∃ b, (b, ch) ∈ b2u) ∧ ch ≠ ' ') :
    ∀ x ∈ initWord (c :: cs), x ∈ mkVocab merges ∧ x ≠ [] ∧ ' ' ∉ x := by
  intro x hx
  have hne : (c :: cs : PyStr) ≠ [] := by simp
  rw [initWord, List.getLast?_eq_getLast _ hne] at hx
  rcases List.mem_append.mp hx with h1 | h1
  · obtain ⟨a, ha, hae⟩ := List.mem_map.mp h1
    have hamem : a ∈ (c :: cs : PyStr) := List.dropLast_subset _ ha
    obtain ⟨hb, hsp⟩ := hchars a hamem
    rw [← hae]
    refine ⟨mem_vocab_base hb, by simp, ?_⟩
    intro hm
    exact hsp (List.mem_singleton.mp hm).symm
  · rw [List.mem_singleton.mp h1]
    have hl := hchars ((c :: cs).getLast hne) (List.getLast_mem hne)
    refine ⟨mem_vocab_eow hl.1, by simp, ?_⟩
    intro hm
    rcases List.mem_cons.mp hm with h2 | h2
    · exact hl.2 h2.symm
    · exact eow_no_space h2

/-! ### `bpe` on a cache miss yields a faithful segmentation -/

theorem bpe_spec (merges : List (List PyStr)) (cache : Cache) (token : PyStr)
    (hmiss : alookup cache token = none) (hne : token ≠ [])
    (hchars : ∀ ch ∈ token, (∃ b, (b, ch) ∈ b2u) ∧ ch ≠ ' ') :
    ∃ r c2, bpe merges cache token = some (r, c2) ∧ SubSpec merges token r ∧
      (c2 = cache ∨ c2 = cache ++ [(token, r)]) := by
  match token, hne, hmiss, hchars with
  | c :: cs, _, hmiss, hchars =>
    by_cases hp : get_pairs (initWord (c :: cs)) = []
    · have hlen : (initWord (c :: cs)).length ≤ 1 := get_pairs_eq_nil.mp hp
      rw [initWord_length] at hlen
      have hcs : cs = [] := by
        cases cs with
        | nil => rfl
        | cons d ds => simp at hlen
      subst hcs
      have hnosp : ' ' ∉ (c :: eowM : PyStr) := by
        intro hm
        rcases List.mem_cons.mp hm with h2 | h2
        · exact (hchars c (by simp)).2 h2.symm
        · exact eow_no_space h2
      have hsplit : splitCh ' ' ([c] ++ eowM) = [[c] ++ eowM] := splitCh_no_sep hnosp
      refine ⟨[c] ++ eowM, cache, ?_, ?_, Or.inl rfl⟩
      · simp only [bpe, hmiss]
        rw [if_pos hp]
      · refine ⟨by rw [hsplit]; simp, ?_, by rw [hsplit]; simp⟩
        intro u hu
        rw [hsplit] at hu
        rw [List.mem_singleton.mp hu]
        exact mem_vocab_eow (hchars c (by simp)).1
    · obtain ⟨w2, hw2, hw2ne, hw2P⟩ :=
        bpeLoopF_spec merges
          (fun w => w.flatten = (c :: cs) ++ eowM ∧
            ∀ x ∈ w, x ∈ mkVocab merges ∧ x ≠ [] ∧ ' ' ∉ x)
          (fun w p hpm hr hP => by
            refine ⟨by rw [specMerge_flatten]; exact hP.1, ?_⟩
            intro x hx
            rcases specMerge_mem hx with h1 | h1
            · exact hP.2 x h1
            · obtain ⟨k, hk⟩ := Option.ne_none_iff_exists'.mp hr
              have hm12 : [p.1, p.2] ∈ merges := rank_mem hk
              have hf := hP.2 p.1 (get_pairs_mem hpm).1
              have hs := hP.2 p.2 (get_pairs_mem hpm).2
              subst h1
              refine ⟨mem_vocab_merge hm12, ?_, ?_⟩
              · intro hnil
                exact hf.2.1 (List.append_eq_nil.mp hnil).1
              · intro hsp
                rcases List.mem_append.mp hsp with h2 | h2
                · exact hf.2.2 h2
                · exact hs.2.2 h2)
          (initWord (c :: cs)).length (initWord (c :: cs)) (initWord_ne_nil c cs) le_rfl
          ⟨initWord_flatten c cs, initWord_facts c cs hchars⟩
      have hsplit : splitCh ' ' (joinCh ' ' w2) = w2 :=
        splitCh_joinCh w2 hw2ne (fun x hx => (hw2P.2 x hx).2.2)
      refine ⟨joinCh ' ' w2, cache ++ [(c :: cs, joinCh ' ' w2)], ?_, ?_, Or.inr rfl⟩
      · simp only [bpe, hmiss]
        rw [if_neg hp, hw2]
      · exact ⟨by rw [hsplit]; exact hw2ne,
          fun u hu => (hw2P.2 u (hsplit ▸ hu)).1, by rw [hsplit]; exact hw2P.1⟩

/-! ### The cache invariant -/

theorem sot_ne_eot : sotS ≠ eotS := by decide

theorem goodCache_init (merges : List (List PyStr)) :
    GoodCache merges [(sotS, sotS), (eotS, eotS)] := by
  refine ⟨?_, ?_, ?_⟩
  · rw [alookup_cons, if_pos rfl]
  · rw [alookup_cons, if_neg sot_ne_eot, alookup_cons, if_pos rfl]
  · intro t r h
    rw [alookup_cons] at h
    by_cases h1 : sotS = t
    · rw [if_pos h1] at h
      have h' : some sotS = some r := h
      cases h'
      exact Or.inl ⟨h1.symm, rfl⟩
    · rw [if_neg h1, alookup_cons] at h
      by_cases h2 : eotS = t
      · rw [if_pos h2] at h
        have h' : some eotS = some r := h
        cases h'
        exact Or.inr (Or.inl ⟨h2.symm, rfl⟩)
      · rw [if_neg h2] at h
        simp [alookup] at h

theorem goodCache_extend {merges : List (List PyStr)} {cache : Cache}
    {token r : PyStr} (hg : GoodCache merges cache) (hs : SubSpec merges token r) :
    GoodCache merges (cache ++ [(token, r)]) := by
  refine ⟨alookup_append_left hg.1, alookup_append_left hg.2.1, ?_⟩
  intro t r2 h
  rcases alookup_append_cases h with h1 | ⟨_, h2⟩
  · exact hg.2.2 t r2 h1
  · rw [alookup_cons] at h2
    by_cases he : token = t
    · rw [if_pos he] at h2
      have h2' : some r = some r2 := h2
      cases h2'
      exact Or.inr (Or.inr (he ▸ hs))
    · rw [if_neg he] at h2
      simp [alookup] at h2

/-! ### Special tokens through the byte translation -/

set_option maxRecDepth 4000 in
theorem sot_token : omap byteEnc (utf8Str sotS) = some sotS := by decide

set_option maxRecDepth 4000 in
theorem eot_token : omap byteEnc (utf8Str eotS) = some eotS := by decide

theorem sot_nospace : ' ' ∉ sotS := by decide

theorem eot_nospace : ' ' ∉ eotS := by decide

set_option maxRecDepth 4000 in
theorem sot_bytes : omap byteDec sotS = some (utf8Str sotS) := by decide

set_option maxRecDepth 4000 in
theorem eot_bytes : omap byteDec eotS = some (utf8Str eotS) := by decide

set_option maxRecDepth 4000 in
theorem eow_bytes : omap byteDec eowM = some (utf8Str eowM) := by decide

theorem token_of_chunk {chunk token : PyStr}
    (h : omap byteEnc (utf8Str chunk) = some token) :
    omap byteDec token = some (utf8Str chunk) := by
  obtain ⟨tok2, he, hd⟩ := byte_translate (utf8Str_lt chunk)
  rw [h] at he
  injection he with he2
  rw [← he2] at hd
  exact hd

theorem chunk_of_token_sot {chunk token : PyStr}
    (h : omap byteEnc (utf8Str chunk) = some token) (hst : token = sotS) :
    chunk = sotS := by
  have hd := token_of_chunk h
  rw [hst, sot_bytes] at hd
  injection hd with hd2
  exact (utf8Str_inj hd2).symm

theorem chunk_of_token_eot {chunk token : PyStr}
    (h : omap byteEnc (utf8Str chunk) = some token) (hst : token = eotS) :
    chunk = eotS := by
  have hd := token_of_chunk h
  rw [hst, eot_bytes] at hd
  injection hd with hd2
  exact (utf8Str_inj hd2).symm

/-! ### One chunk through `encode` -/

theorem subspec_chunk_out (artifact : PyStr) {chunk token r : PyStr}
    (henc : omap byteEnc (utf8Str chunk) = some token)
    (hsub : SubSpec (loadMerges (splitCh nlC artifact)) token r) :
    ∃ ids, omap (fun sw => alookup (mkTokenizer artifact).encoder sw)
        (splitCh ' ' r) = some ids ∧
      omap (fun i => alookup (mkTokenizer artifact).decoder i) ids =
        some (splitCh ' ' r) ∧
      omap byteDec (splitCh ' ' r).flatten = some (utf8Str (chunk ++ eowM)) := by
  have hpt : ∀ u ∈ splitCh ' ' r, ∃ i,
      alookup (mkTokenizer artifact).encoder u = some i ∧
      alookup (mkTokenizer artifact).decoder i = some u := by
    intro u hu
    have hv : u ∈ mkVocab (loadMerges (splitCh nlC artifact)) := hsub.2.1 u hu
    simp only [mkTokenizer]
    obtain ⟨i, hi⟩ := enc_lookup_isSome hv
    exact ⟨i, hi, dec_of_enc hi⟩
  obtain ⟨ids, hids, hback⟩ := omap_roundtrip (splitCh ' ' r)
    (fun u hu => by
      obtain ⟨i, h1, h2⟩ := hpt u hu
      exact ⟨i, h1, h2⟩)
  refine ⟨ids, hids, hback, ?_⟩
  rw [hsub.2.2, utf8Str_append]
  exact omap_append token (token_of_chunk henc) eow_bytes

theorem encodeChunk_spec (artifact : PyStr) (cache : Cache) (chunk : PyStr)
    (hne : chunk ≠ []) (hg : GoodCache (loadMerges (splitCh nlC artifact)) cache) :
    ∃ ids c2 subs, encodeChunk (mkTokenizer artifact) cache chunk = some (ids, c2) ∧
      GoodCache (loadMerges (splitCh nlC artifact)) c2 ∧
      omap (fun i => alookup (mkTokenizer artifact).decoder i) ids = some subs ∧
      omap byteDec subs.flatten =
        some (utf8Str (if chunk = sotS ∨ chunk = eotS then chunk else chunk ++ eowM)) := by
  obtain ⟨token, henc, hdec0⟩ := byte_translate (utf8Str_lt chunk)
  have htokchars := token_char_facts henc
  have htokne : token ≠ [] := by
    intro h0
    have hl := omap_length henc
    rw [h0] at hl
    exact utf8Str_ne_nil hne (List.length_eq_zero.mp hl.symm)
  by_cases hspc : chunk = sotS ∨ chunk = eotS
  · -- a special chunk is a seed cache hit reproducing itself
    have hsp : ∃ sp, chunk = sp ∧ token = sp ∧ alookup cache sp = some sp ∧
        ' ' ∉ sp ∧ omap byteDec sp = some (utf8Str sp) ∧
        sp ∈ mkVocab (loadMerges (splitCh nlC artifact)) := by
      rcases hspc with h | h
      · refine ⟨sotS, h, ?_, hg.1, sot_nospace, sot_bytes, sot_mem_vocab⟩
        rw [h] at henc
        rw [sot_token] at henc
        injection henc with h2
        exact h2.symm
      · refine ⟨eotS, h, ?_, hg.2.1, eot_nospace, eot_bytes, eot_mem_vocab⟩
        rw [h] at henc
        rw [eot_token] at henc
        injection henc with h2
        exact h2.symm
    obtain ⟨sp, hch, htok, hca, hnsp, hbts, hmem⟩ := hsp
    have hbpe : bpe (loadMerges (splitCh nlC artifact)) cache token = some (sp, cache) := by
      rw [htok]
      simp only [bpe, hca]
    have hsplit : splitCh ' ' sp = [sp] := splitCh_no_sep hnsp
    obtain ⟨i, hi⟩ : ∃ i, alookup (pyDict ((mkVocab (loadMerges (splitCh nlC artifact))).zip
        (List.range (mkVocab (loadMerges (splitCh nlC artifact))).length))) sp = some i :=
      enc_lookup_isSome hmem
    have hdi := dec_of_enc hi
    have hencids : omap (fun sw => alookup (mkTokenizer artifact).encoder sw) [sp] =
        some [i] := by
      simp only [mkTokenizer, omap]
      rw [hi]
      rfl
    have hdecids : omap (fun j => alookup (mkTokenizer artifact).decoder j) [i] =
        some [sp] := by
      simp only [mkTokenizer, omap]
      rw [hdi]
      rfl
    refine ⟨[i], cache, [sp], ?_, hg, hdecids, ?_⟩
    · simp only [encodeChunk, henc]
      simp only [mkTokenizer] at hbpe hencids ⊢
      simp only [hbpe, hsplit, hencids]
    · rw [if_pos hspc, hch]
      rw [show ([sp] : List PyStr).flatten = sp ++ [] from rfl, List.append_nil]
      exact hbts
  · -- a genuine chunk: BPE segments token ++ eowM
    have htns : token ≠ sotS := fun h => hspc (Or.inl (chunk_of_token_sot henc h))
    have htne : token ≠ eotS := fun h => hspc (Or.inr (chunk_of_token_eot henc h))
    have hmain : ∃ r c2, bpe (loadMerges (splitCh nlC artifact)) cache token =
        some (r, c2) ∧ SubSpec (loadMerges (splitCh nlC artifact)) token r ∧
        GoodCache (loadMerges (splitCh nlC artifact)) c2 := by
      cases hca : alookup cache token with
      | some r =>
        rcases hg.2.2 token r hca with ⟨h1, _⟩ | ⟨h1, _⟩ | hsub
        · exact absurd h1 htns
        · exact absurd h1 htne
        · refine ⟨r, cache, ?_, hsub, hg⟩
          simp only [bpe, hca]
      | none =>
        obtain ⟨r, c2, hbpe, hsub, hc2⟩ :=
          bpe_spec (loadMerges (splitCh nlC artifact)) cache token hca htokne htokchars
        refine ⟨r, c2, hbpe, hsub, ?_⟩
        rcases hc2 with h | h
        · rw [h]; exact hg
        · rw [h]; exact goodCache_extend hg hsub
    obtain ⟨r, c2, hbpe, hsub, hgc2⟩ := hmain
    obtain ⟨ids, hids, hback, hbytes⟩ := subspec_chunk_out artifact henc hsub
    refine ⟨ids, c2, splitCh ' ' r, ?_, hgc2, hback, ?_⟩
    · simp only [encodeChunk, henc]
      simp only [mkTokenizer] at hbpe hids ⊢
      simp only [hbpe, hids]
    · rw [if_neg hspc]
      exact hbytes

/-! ### All chunks through `encode` -/

theorem encodeChunks_spec (artifact : PyStr) :
    ∀ (chunks : List PyStr) (cache : Cache), (∀ c ∈ chunks, c ≠ []) →
      GoodCache (loadMerges (splitCh nlC artifact)) cache →
      ∃ ids c2 subs, encodeChunks (mkTokenizer artifact) cache chunks =
          some (ids, c2) ∧
        GoodCache (loadMerges (splitCh nlC artifact)) c2 ∧
        omap (fun i => alookup (mkTokenizer artifact).decoder i) ids = some subs ∧
        omap byteDec subs.flatten = some (utf8Str (decTextOf chunks)) := by
  intro chunks
  induction chunks with
  | nil =>
    intro cache _ hg
    refine ⟨[], cache, [], rfl, hg, rfl, ?_⟩
    rw [show decTextOf [] = [] from rfl]
    rfl
  | cons ch rest ih =>
    intro cache hne hg
    obtain ⟨ids1, c2, subs1, h1, hg2, hd1, hb1⟩ :=
      encodeChunk_spec artifact cache ch (hne ch (List.mem_cons_self _ _)) hg
    obtain ⟨ids2, c3, subs2, h2, hg3, hd2, hb2⟩ :=
      ih c2 (fun c hc => hne c (List.mem_cons_of_mem _ hc)) hg2
    refine ⟨ids1 ++ ids2, c3, subs1 ++ subs2, ?_, hg3, ?_, ?_⟩
    · simp only [encodeChunks, h1, h2]
    · exact omap_append ids1 hd1 hd2
    · rw [List.flatten_append, omap_append subs1.flatten hb1 hb2,
        show decTextOf (ch :: rest) =
          (if ch = sotS ∨ ch = eotS then ch else ch ++ eowM) ++ decTextOf rest from rfl,
        utf8Str_append]

/-! ### Classifying the chunks of the pre-tokeniser -/

theorem toLower_idem (c : Char) : c.toLower.toLower = c.toLower := by
  simp only [Char.toLower]
  by_cases h : c.toNat ≥ 65 ∧ c.toNat ≤ 90
  · rw [if_pos h]
    have hv : (Char.ofNat (c.toNat + 32)).toNat = c.toNat + 32 :=
      char_toNat_ofNat (Or.inl (by omega))
    rw [if_neg (by rw [hv]; omega)]
  · rw [if_neg h, if_neg h]

theorem lowerStr_lowered (t : PyStr) : ∀ x ∈ lowerStr t, x.toLower = x := by
  intro x hx
  obtain ⟨y, _, hy⟩ := List.mem_map.mp hx
  rw [← hy]
  exact toLower_idem y

theorem takePreCI_lower : ∀ {p l r : PyStr}, takePreCI? p l = some r →
    (l.take p.length).map Char.toLower = p := by
  intro p
  induction p with
  | nil =>
    intro l r _
    rfl
  | cons a ps ih =>
    intro l r h
    cases l with
    | nil => cases h
    | cons x xs =>
      simp only [takePreCI?] at h
      by_cases hx : x.toLower = a
      · rw [if_pos hx] at h
        simp only [List.length_cons, List.take_succ_cons, List.map_cons]
        rw [hx, ih h]
      · rw [if_neg hx] at h
        cases h

theorem matchLit_spec : ∀ {pats : List PyStr} {l ch : PyStr},
    matchLit pats l = some ch →
    ∃ p ∈ pats, ch = l.take p.length ∧ (l.take p.length).map Char.toLower = p := by
  intro pats
  induction pats with
  | nil => intro l ch h; cases h
  | cons p ps ih =>
    intro l ch h
    simp only [matchLit] at h
    cases ht : takePreCI? p l with
    | some rest =>
      rw [ht] at h
      have h2 : some (l.take p.length) = some ch := h
      cases h2
      exact ⟨p, List.mem_cons_self _ _, rfl, takePreCI_lower ht⟩
    | none =>
      rw [ht] at h
      obtain ⟨q, hq, he, hm⟩ := ih h
      exact ⟨q, List.mem_cons_of_mem _ hq, he, hm⟩

theorem mem_takeWhile_facts {p : Char → Bool} : ∀ {l : PyStr} {x : Char},
    x ∈ l.takeWhile p → x ∈ l ∧ p x = true := by
  intro l
  induction l with
  | nil => intro x hx; simp [List.takeWhile] at hx
  | cons c t ih =>
    intro x hx
    simp only [List.takeWhile] at hx
    cases hc : p c with
    | false =>
      rw [hc] at hx
      simp at hx
    | true =>
      rw [hc] at hx
      rcases List.mem_cons.mp hx with h1 | h1
      · exact ⟨h1 ▸ List.mem_cons_self _ _, h1 ▸ hc⟩
      · obtain ⟨hm, hp⟩ := ih h1
        exact ⟨List.mem_cons_of_mem _ hm, hp⟩

theorem matchAt_shape {l ch : PyStr} (hlow : ∀ x ∈ l, x.toLower = x)
    (h : matchAt l = some ch) : ChunkShape ch := by
  cases hml : matchLit ([sotS, eotS] ++ contractions) l with
  | some chunk =>
    have he : matchAt l = some chunk := by
      simp only [matchAt, hml]
    rw [he] at h
    injection h with h3
    subst h3
    obtain ⟨p, hp, he2, hm⟩ := matchLit_spec hml
    have hsub : ∀ x ∈ chunk, x ∈ l := fun x hx => List.take_subset _ _ (he2 ▸ hx)
    have hlowch : chunk.map Char.toLower = chunk := by
      have hall : ∀ x ∈ chunk, Char.toLower x = x := fun x hx => hlow x (hsub x hx)
      rw [List.map_congr_left hall]
      simp
    have hcp : chunk = p := by rw [← hm, ← he2, hlowch]
    rcases List.mem_append.mp hp with h1 | h1
    · rw [List.mem_cons, List.mem_singleton] at h1
      rcases h1 with h1 | h1
      · exact Or.inl (hcp.trans h1)
      · exact Or.inr (Or.inl (hcp.trans h1))
    · exact Or.inr (Or.inr (Or.inl (hcp ▸ h1)))
  | none =>
    cases l with
    | nil =>
      have he : matchAt ([] : PyStr) = none := by
        simp only [matchAt, hml]
      rw [he] at h
      cases h
    | cons c t =>
      by_cases ha : c.isAlpha = true
      · have he : matchAt (c :: t) = some ((c :: t).takeWhile Char.isAlpha) := by
          simp only [matchAt, hml]
          rw [if_pos ha]
        rw [he] at h
        injection h with h2
        subst h2
        refine Or.inr (Or.inr (Or.inr (Or.inl ⟨?_, ?_⟩)))
        · rw [List.takeWhile_cons_of_pos ha]
          simp
        · intro x hx
          exact (mem_takeWhile_facts hx).2
      · by_cases hd : c.isDigit = true
        · have he : matchAt (c :: t) = some [c] := by
            simp only [matchAt, hml]
            rw [if_neg ha, if_pos hd]
          rw [he] at h
          injection h with h2
          subst h2
          exact Or.inr (Or.inr (Or.inr (Or.inr (Or.inl ⟨c, rfl, hd⟩))))
        · by_cases ho : isOtherCh c = true
          · have he : matchAt (c :: t) = some ((c :: t).takeWhile isOtherCh) := by
              simp only [matchAt, hml]
              rw [if_neg ha, if_neg hd, if_pos ho]
            rw [he] at h
            injection h with h2
            subst h2
            refine Or.inr (Or.inr (Or.inr (Or.inr (Or.inr ⟨?_, ?_⟩))))
            · rw [List.takeWhile_cons_of_pos ho]
              simp
            · intro x hx
              exact (mem_takeWhile_facts hx).2
          · have he : matchAt (c :: t) = none := by
              simp only [matchAt, hml]
              rw [if_neg ha, if_neg hd, if_neg ho]
            rw [he] at h
            cases h

theorem findChunksF_shape : ∀ (fuel : Nat) (l : PyStr), (∀ x ∈ l, x.toLower = x) →
    ∀ c ∈ findChunksF fuel l, ChunkShape c := by
  intro fuel
  induction fuel with
  | zero =>
    intro l _ c hc
    simp [findChunksF] at hc
  | succ n ih =>
    intro l hlow c hc
    cases l with
    | nil => simp [findChunksF] at hc
    | cons a t =>
      simp only [findChunksF] at hc
      cases hm : matchAt (a :: t) with
      | some chunk =>
        rw [hm] at hc
        rcases List.mem_cons.mp hc with h1 | h1
        · exact h1 ▸ matchAt_shape hlow hm
        · exact ih _ (fun x hx => hlow x (List.drop_subset _ _ hx)) c h1
      | none =>
        rw [hm] at hc
        exact ih t (fun x hx => hlow x (List.mem_cons_of_mem _ hx)) c hc

theorem findChunks_shape (l : PyStr) (hlow : ∀ x ∈ l, x.toLower = x) :
    ∀ c ∈ findChunks l, ChunkShape c :=
  findChunksF_shape l.length l hlow

/-! ### `str.replace('</w>', ' ')` over the decoded text -/

theorem takePre_self : ∀ (p r : PyStr), takePre? p (p ++ r) = some r := by
  intro p
  induction p with
  | nil => intro r; rfl
  | cons a ps ih =>
    intro r
    simp only [List.cons_append, takePre?, if_pos rfl]
    exact ih r

theorem takePre_some_append : ∀ {p l r : PyStr}, takePre? p l = some r →
    l = p ++ r := by
  intro p
  induction p with
  | nil =>
    intro l r h
    have h2 : some l = some r := h
    cases h2
    rfl
  | cons a ps ih =>
    intro l r h
    cases l with
    | nil => cases h
    | cons x xs =>
      simp only [takePre?] at h
      by_cases hx : x = a
      · rw [if_pos hx] at h
        rw [List.cons_append, hx, ih h]
      · rw [if_neg hx] at h
        cases h

theorem occ_in_append {c R : PyStr} {i : Nat} (hi : i < c.length) {r : PyStr}
    (h : takePre? eowM ((c ++ R).drop i) = some r) :
    getElem? c i = some '<' ∧ getElem? (c ++ R) (i + 1) = some '/' ∧
      getElem? (c ++ R) (i + 2) = some 'w' := by
  have happ := takePre_some_append h
  have h0 : getElem? (c ++ R) i = some '<' := by
    have hg : getElem? ((c ++ R).drop i) 0 = some '<' := by rw [happ]; rfl
    rwa [List.getElem?_drop, Nat.add_zero] at hg
  have h1 : getElem? (c ++ R) (i + 1) = some '/' := by
    have hg : getElem? ((c ++ R).drop i) 1 = some '/' := by rw [happ]; rfl
    rwa [List.getElem?_drop] at hg
  have h2 : getElem? (c ++ R) (i + 2) = some 'w' := by
    have hg : getElem? ((c ++ R).drop i) 2 = some 'w' := by rw [happ]; rfl
    rwa [List.getElem?_drop] at hg
  refine ⟨?_, h1, h2⟩
  rwa [List.getElem?_append_left hi] at h0

theorem pyReplaceF_fuel : ∀ (f1 : Nat), ∀ {f2 : Nat} {l : PyStr}, l.length ≤ f1 →
    l.length ≤ f2 → pyReplaceF f1 l = pyReplaceF f2 l := by
  intro f1
  induction f1 with
  | zero =>
    intro f2 l h1 _
    have hl : l = [] := List.length_eq_zero.mp (Nat.le_zero.mp h1)
    subst hl
    cases f2 with
    | zero => rfl
    | succ m => rfl
  | succ n ih =>
    intro f2 l h1 h2
    cases l with
    | nil =>
      cases f2 with
      | zero => rfl
      | succ m => rfl
    | cons c t =>
      cases f2 with
      | zero => simp at h2
      | succ m =>
        simp only [pyReplaceF]
        simp only [List.length_cons] at h1 h2
        by_cases hc : takePre? eowM (c :: t) = none
        · have ht1 : t.length ≤ n := by omega
          have ht2 : t.length ≤ m := by omega
          rw [if_pos hc, if_pos hc, ih ht1 ht2]
        · rw [if_neg hc, if_neg hc]
          have heow : List.length eowM = 4 := rfl
          have hd : ((c :: t).drop eowM.length).length ≤ n := by
            rw [List.length_drop, heow]
            simp only [List.length_cons]
            omega
          have hd2 : ((c :: t).drop eowM.length).length ≤ m := by
            rw [List.length_drop, heow]
            simp only [List.length_cons]
            omega
          rw [ih hd hd2]

theorem pyReplaceF_skip : ∀ (c : PyStr) {rest : PyStr} {fuel : Nat},
    rest.length ≤ fuel →
    (∀ i, i < c.length → takePre? eowM ((c ++ rest).drop i) = none) →
    pyReplaceF (c.length + fuel) (c ++ rest) = c ++ pyReplaceF fuel rest := by
  intro c
  induction c with
  | nil =>
    intro rest fuel _ _
    rw [List.nil_append, List.length_nil, Nat.zero_add, List.nil_append]
  | cons a c2 ih =>
    intro rest fuel h1 hno
    have h0 : takePre? eowM (a :: (c2 ++ rest)) = none := by
      have hn := hno 0 (by simp)
      rwa [List.drop_zero, List.cons_append] at hn
    have hshift : ∀ i, i < c2.length → takePre? eowM ((c2 ++ rest).drop i) = none := by
      intro i hi
      have hn := hno (i + 1) (by simp only [List.length_cons]; omega)
      rwa [List.cons_append, List.drop_succ_cons] at hn
    rw [List.cons_append, show (a :: c2 : PyStr).length + fuel = (c2.length + fuel) + 1
      by simp only [List.length_cons]; omega]
    simp only [pyReplaceF]
    rw [if_pos h0, ih h1 hshift, List.cons_append]

theorem pyReplaceF_marker {rest : PyStr} {fuel : Nat} (h : rest.length ≤ fuel) :
    pyReplaceF (4 + fuel) (eowM ++ rest) = ' ' :: pyReplaceF fuel rest := by
  have he : eowM ++ rest = '<' :: (lc ("/w>") ++ rest) := rfl
  have hne : ¬ takePre? eowM ('<' :: (lc ("/w>") ++ rest)) = none := by
    intro hcon
    have hself := takePre_self eowM rest
    rw [he] at hself
    rw [hself] at hcon
    cases hcon
  have hd : ('<' :: (lc ("/w>") ++ rest)).drop eowM.length = rest := by
    rw [← he]
    exact List.drop_left eowM rest
  rw [he, show 4 + fuel = (3 + fuel) + 1 by omega]
  simp only [pyReplaceF]
  rw [if_neg hne, hd, pyReplaceF_fuel (3 + fuel) (by omega) h]

theorem noOcc_no_lt {c : PyStr} (hlt : '<' ∉ c) (R : PyStr) :
    ∀ i, i < c.length → takePre? eowM ((c ++ R).drop i) = none := by
  intro i hi
  cases hocc : takePre? eowM ((c ++ R).drop i) with
  | none => rfl
  | some r =>
    obtain ⟨h0, _, _⟩ := occ_in_append hi hocc
    exact absurd (List.getElem?_mem h0) hlt

theorem noOcc_other {c : PyStr} (hc : ∀ x ∈ c, isOtherCh x = true) {R : PyStr}
    (hR0 : getElem? R 0 = some '<') (hR1 : getElem? R 1 = some '/') :
    ∀ i, i < c.length → takePre? eowM ((c ++ R).drop i) = none := by
  intro i hi
  cases hocc : takePre? eowM ((c ++ R).drop i) with
  | none => rfl
  | some r =>
    exfalso
    obtain ⟨h0, h1, h2⟩ := occ_in_append hi hocc
    by_cases hlen : i + 2 < c.length
    · rw [List.getElem?_append_left hlen] at h2
      have hw := hc 'w' (List.getElem?_mem h2)
      exact absurd hw (by decide)
    · have hge : c.length ≤ i + 2 := by omega
      rw [List.getElem?_append_right hge] at h2
      have hcases : i + 2 - c.length = 0 ∨ i + 2 - c.length = 1 := by omega
      rcases hcases with hcase | hcase
      · rw [hcase, hR0] at h2
        exact absurd (Option.some.inj h2) (by decide)
      · rw [hcase, hR1] at h2
        exact absurd (Option.some.inj h2) (by decide)

theorem sot_lt_only0 : ∀ j, j < 15 → getElem? sotS j = some '<' → j = 0 := by decide

theorem eot_lt_only0 : ∀ j, j < 13 → getElem? eotS j = some '<' → j = 0 := by decide

theorem noOcc_special {c : PyStr} (hc : c = sotS ∨ c = eotS) (R : PyStr) :
    ∀ i, i < c.length → takePre? eowM ((c ++ R).drop i) = none := by
  intro i hi
  cases hocc : takePre? eowM ((c ++ R).drop i) with
  | none => rfl
  | some r =>
    exfalso
    obtain ⟨h0, h1, _⟩ := occ_in_append hi hocc
    rcases hc with h | h <;> subst h
    · have hi0 : i = 0 :=
        sot_lt_only0 i (by rw [show sotS.length = 15 from rfl] at hi; exact hi) h0
      subst hi0
      have h1b : getElem? sotS (0 + 1) = some '/' := by
        rwa [List.getElem?_append_left (show (0 + 1 : Nat) < sotS.length by decide)] at h1
      exact absurd h1b (by decide)
    · have hi0 : i = 0 :=
        eot_lt_only0 i (by rw [show eotS.length = 13 from rfl] at hi; exact hi) h0
      subst hi0
      have h1b : getElem? eotS (0 + 1) = some '/' := by
        rwa [List.getElem?_append_left (show (0 + 1 : Nat) < eotS.length by decide)] at h1
      exact absurd h1b (by decide)

theorem contractions_no_lt : ∀ p ∈ contractions, '<' ∉ p := by decide

theorem pyReplace_interleave : ∀ (chunks : List PyStr),
    (∀ c ∈ chunks, ChunkShape c) →
    pyReplace (decTextOf chunks) = roundTarget chunks := by
  intro chunks
  induction chunks with
  | nil => intro _; rfl
  | cons c rest ih =>
    intro hshape
    have hrest := ih (fun x hx => hshape x (List.mem_cons_of_mem _ hx))
    have hdect : decTextOf (c :: rest) =
        (if c = sotS ∨ c = eotS then c else c ++ eowM) ++ decTextOf rest := rfl
    by_cases hsp : c = sotS ∨ c = eotS
    · rw [hdect, if_pos hsp]
      rw [pyReplace, List.length_append]
      rw [pyReplaceF_skip c (le_refl _) (noOcc_special hsp _)]
      rw [show pyReplaceF (decTextOf rest).length (decTextOf rest) =
        pyReplace (decTextOf rest) from rfl, hrest]
      simp only [roundTarget, List.map_cons, List.flatten_cons, if_pos hsp]
    · have hshapec := hshape c (List.mem_cons_self _ _)
      have hnoOcc : ∀ i, i < c.length →
          takePre? eowM ((c ++ (eowM ++ decTextOf rest)).drop i) = none := by
        rcases hshapec with h | h | h | h | h | h
        · exact absurd (Or.inl h) hsp
        · exact absurd (Or.inr h) hsp
        · exact noOcc_no_lt (contractions_no_lt c h) _
        · refine noOcc_no_lt ?_ _
          intro hmem
          exact absurd (h.2 '<' hmem) (by decide)
        · refine noOcc_no_lt ?_ _
          obtain ⟨d, hd1, hd2⟩ := h
          subst hd1
          intro hmem
          rw [← List.mem_singleton.mp hmem] at hd2
          exact absurd hd2 (by decide)
        · exact noOcc_other h.2 rfl rfl
      rw [hdect, if_neg hsp, List.append_assoc]
      rw [pyReplace, List.length_append]
      rw [show (eowM ++ decTextOf rest).length = 4 + (decTextOf rest).length by
        rw [List.length_append]; rfl]
      rw [pyReplaceF_skip c (by rw [List.length_append]; rfl) hnoOcc]
      rw [pyReplaceF_marker (le_refl _)]
      rw [show pyReplaceF (decTextOf rest).length (decTextOf rest) =
        pyReplace (decTextOf rest) from rfl, hrest]
      simp only [roundTarget, List.map_cons, List.flatten_cons, if_neg hsp]
      rw [List.append_assoc, List.singleton_append]

/-! ### C1: the round trip -/

theorem round_trip_main (artifact text : PyStr) :
    ∃ ids c2, encode (mkTokenizer artifact) (mkTokenizer artifact).cache text =
        some (ids, c2) ∧
      decode (mkTokenizer artifact) ids =
        some (roundTarget (findChunks (normText text))) := by
  have hg : GoodCache (loadMerges (splitCh nlC artifact))
      (mkTokenizer artifact).cache := by
    have hcache : (mkTokenizer artifact).cache = [(sotS, sotS), (eotS, eotS)] := by
      simp only [mkTokenizer]
    rw [hcache]
    exact goodCache_init _
  have hne : ∀ c ∈ findChunks (normText text), c ≠ [] := findChunks_ne_nil _
  have hshapes : ∀ c ∈ findChunks (normText text), ChunkShape c :=
    findChunks_shape _ (lowerStr_lowered _)
  obtain ⟨ids, c2, subs, henc, _, hdec, hbytes⟩ :=
    encodeChunks_spec artifact (findChunks (normText text))
      (mkTokenizer artifact).cache hne hg
  refine ⟨ids, c2, henc, ?_⟩
  simp only [decode, hdec, hbytes]
  rw [utf8Dec_utf8Str_nil, pyReplace_interleave _ hshapes]

/-- C1 (amended): the round trip is stable but not the identity — for every
artifact and every text, `encode` succeeds from the freshly constructed cache
and decoding its ids reproduces each pre-tokenisation chunk of the normalised
text followed by one space (the image of the end-of-word marker), special
tokens bare; it does **not** reproduce `normalize(text)` itself. -/
theorem C1_round_trip (artifact text : PyStr) :
    ∃ ids c2, encode (mkTokenizer artifact) (mkTokenizer artifact).cache text =
        some (ids, c2) ∧
      decode (mkTokenizer artifact) ids =
        some (roundTarget (findChunks (normText text))) :=
  round_trip_main artifact text

set_option maxRecDepth 4000 in
/-- C1 counterexample: `decode(encode("Hello   World"))` yields
`"hello world "` — with a trailing space — which differs from the
normalised text `"hello world"` the claim promises. -/
theorem C1_counterexample :
    (∃ ids c2,
      encode (mkTokenizer noMergeArt) (mkTokenizer noMergeArt).cache
        (lc ("Hello   World")) = some (ids, c2) ∧
      decode (mkTokenizer noMergeArt) ids = some (lc ("hello world "))) ∧
    lc ("hello world ") ≠ normText (lc ("Hello   World")) := by
  constructor
  · obtain ⟨ids, c2, h1, h2⟩ := round_trip_main noMergeArt (lc ("Hello   World"))
    refine ⟨ids, c2, h1, ?_⟩
    rw [h2]
    have hval : roundTarget (findChunks (normText (lc ("Hello   World")))) =
        lc ("hello world ") := by decide
    rw [hval]
  · decide
